import Mathlib

/-
Verification of the transcript reconstruction and citation-linking subsystem
of the semantic-lighthouse meeting pipeline, as implemented in
src/meeting-processor/src/process_transcript/handler.py.

Strings are modelled as explicit character lists (`Str := List Char`),
Python floats as rationals, Python ints as `Int`/`Nat`, raising code as
`Except Unit`, and JSON-optional keys as `Option`.  Python's stable
`sorted` is modelled by a stable insertion sort (`pySorted`), which is
extensionally the unique stable ascending sort that `sorted` computes.
-/

namespace SemanticLighthouse

abbrev Str := List Char

/-- The ten decimal digit characters, used by decimal rendering. -/
def digitChar : Nat → Char
  | 0 => '0'
  | 1 => '1'
  | 2 => '2'
  | 3 => '3'
  | 4 => '4'
  | 5 => '5'
  | 6 => '6'
  | 7 => '7'
  | 8 => '8'
  | _ => '9'

/-- Value of one decimal digit character, `none` on non-digits (mirrors the
set `\d` of the citation regexes and Python `int` digit parsing). -/
def digitVal : Char → Option Nat
  | '0' => .some 0
  | '1' => .some 1
  | '2' => .some 2
  | '3' => .some 3
  | '4' => .some 4
  | '5' => .some 5
  | '6' => .some 6
  | '7' => .some 7
  | '8' => .some 8
  | '9' => .some 9
  | _ => .none

def isDigitCh (c : Char) : Bool := (digitVal c).isSome

/-- Decimal rendering of a natural number, fuel-based so that it evaluates
by kernel reduction; `natDec n` is Python's `str(n)` / `f-string` rendering. -/
def natDecAux : Nat → Nat → Str
  | 0, _ => []
  | f + 1, n => if n < 10 then [digitChar n] else natDecAux f (n / 10) ++ [digitChar (n % 10)]

def natDec (n : Nat) : Str := natDecAux (n + 1) n

/-- Python `int` on a string of decimal digits (no sign): `none` mirrors a
`ValueError`; leading zeros are accepted as Python does. -/
def parsePyNatAux : Nat → Str → Option Nat
  | acc, [] => some acc
  | acc, c :: cs =>
    match digitVal c with
    | some d => parsePyNatAux (10 * acc + d) cs
    | none => none

def parsePyNat (l : Str) : Option Nat :=
  if l = [] then none else parsePyNatAux 0 l

/-- Python `int` on a possibly-negative decimal string. -/
def parsePyInt (l : Str) : Option Int :=
  match l with
  | [] => none
  | c :: cs =>
    if c = '-' then (parsePyNat cs).map (fun n => -(n : Int))
    else (parsePyNat l).map (fun n => (n : Int))

/-- Python `f-string` `%02d`-style rendering of a natural number:
zero-padded to width two. -/
def pad2 (n : Nat) : Str := if n < 10 then '0' :: natDec n else natDec n

/-- Python `f-string` `{x:02d}` rendering of an integer (the sign counts
towards the width, so negative values are rendered `-` followed by digits). -/
def intPad2 (x : Int) : Str := if x < 0 then '-' :: natDec (-x).toNat else pad2 x.toNat

/-- Characters stripped by Python `str.strip()` (ASCII whitespace). -/
def isSpaceCh (c : Char) : Bool :=
  c = ' ' || c = '\t' || c = '\n' || c = '\x0b' || c = '\x0c' || c = '\r'

/-- Python `str.strip()`. -/
def stripWS (l : Str) : Str :=
  (((l.dropWhile isSpaceCh).reverse).dropWhile isSpaceCh).reverse

/-- Characters of a string before the first occurrence of `x`
(the maximal match of `[^x]*` anchored at the start). -/
def takeUntil (x : Char) : Str → Str
  | [] => []
  | c :: cs => if c = x then [] else c :: takeUntil x cs

/-- Rest of the string from the first occurrence of `x` on (empty if absent). -/
def dropUntil (x : Char) : Str → Str
  | [] => []
  | c :: cs => if c = x then c :: cs else dropUntil x cs

/-- Python `str.split(sep)` for a one-character separator. -/
def splitOnCh (x : Char) : Str → List Str
  | [] => [[]]
  | c :: cs =>
    if c = x then [] :: splitOnCh x cs
    else
      match splitOnCh x cs with
      | [] => [[c]]
      | h :: t => (c :: h) :: t

/-- Python `"\n".join(lines)`. -/
def joinLines : List Str → Str
  | [] => []
  | [l] => l
  | l :: ls => l ++ '\n' :: joinLines ls

/-- The transcript line format `[g1][g2][g3] g4` produced by
`convert_to_human_readable` and `merge_chunked_transcripts`. -/
def renderLine (g1 g2 g3 g4 : Str) : Str :=
  '[' :: g1 ++ ']' :: '[' :: g2 ++ ']' :: '[' :: g3 ++ ']' :: ' ' :: g4

/-- Deterministic functional equivalent of
`re.match(r"\[([^\]]+)\]\[([^\]]+)\]\[([^\]]+)\] (.+)", line)`:
each `[^\]]+` group deterministically extends to the first `]`, and the
final `.+` group extends to the end of the line or the first newline. -/
def parseLine (l : Str) : Option (Str × Str × Str × Str) :=
  match l with
  | '[' :: r0 =>
    if takeUntil ']' r0 = [] then none else
    match dropUntil ']' r0 with
    | ']' :: '[' :: r1 =>
      if takeUntil ']' r1 = [] then none else
      match dropUntil ']' r1 with
      | ']' :: '[' :: r2 =>
        if takeUntil ']' r2 = [] then none else
        match dropUntil ']' r2 with
        | ']' :: ' ' :: r3 =>
          if takeUntil '\n' r3 = [] then none else
          some (takeUntil ']' r0, takeUntil ']' r1, takeUntil ']' r2, takeUntil '\n' r3)
        | _ => none
      | _ => none
    | _ => none
  | _ => none

theorem takeUntil_append {x : Char} {a : Str} (b : Str) (h : x ∉ a) :
    takeUntil x (a ++ x :: b) = a := by
  induction a with
  | nil => simp [takeUntil]
  | cons c cs ih =>
    simp only [List.mem_cons, not_or] at h
    simp [takeUntil, Ne.symm, h.1, ih h.2]

theorem dropUntil_append {x : Char} {a : Str} (b : Str) (h : x ∉ a) :
    dropUntil x (a ++ x :: b) = x :: b := by
  induction a with
  | nil => simp [dropUntil]
  | cons c cs ih =>
    simp only [List.mem_cons, not_or] at h
    simp [dropUntil, Ne.symm h.1, ih h.2]

theorem takeUntil_eq_self {x : Char} {a : Str} (h : x ∉ a) :
    takeUntil x a = a := by
  induction a with
  | nil => rfl
  | cons c cs ih =>
    simp only [List.mem_cons, not_or] at h
    simp [takeUntil, Ne.symm h.1, ih h.2]

theorem parseLine_render {g1 g2 g3 g4 : Str}
    (h1 : g1 ≠ [] ∧ ']' ∉ g1) (h2 : g2 ≠ [] ∧ ']' ∉ g2)
    (h3 : g3 ≠ [] ∧ ']' ∉ g3) (h4 : g4 ≠ [] ∧ '\n' ∉ g4) :
    parseLine (renderLine g1 g2 g3 g4) = some (g1, g2, g3, g4) := by
  have e1t : takeUntil ']' (g1 ++ ']' :: ('[' :: g2 ++ ']' :: '[' :: g3 ++ ']' :: ' ' :: g4)) = g1 :=
    takeUntil_append _ h1.2
  have e1d : dropUntil ']' (g1 ++ ']' :: ('[' :: g2 ++ ']' :: '[' :: g3 ++ ']' :: ' ' :: g4))
      = ']' :: ('[' :: g2 ++ ']' :: '[' :: g3 ++ ']' :: ' ' :: g4) :=
    dropUntil_append _ h1.2
  have e2t : takeUntil ']' (g2 ++ ']' :: ('[' :: g3 ++ ']' :: ' ' :: g4)) = g2 :=
    takeUntil_append _ h2.2
  have e2d : dropUntil ']' (g2 ++ ']' :: ('[' :: g3 ++ ']' :: ' ' :: g4))
      = ']' :: ('[' :: g3 ++ ']' :: ' ' :: g4) :=
    dropUntil_append _ h2.2
  have e3t : takeUntil ']' (g3 ++ ']' :: (' ' :: g4)) = g3 := takeUntil_append _ h3.2
  have e3d : dropUntil ']' (g3 ++ ']' :: (' ' :: g4)) = ']' :: (' ' :: g4) :=
    dropUntil_append _ h3.2
  have e4 : takeUntil '\n' g4 = g4 := takeUntil_eq_self h4.2
  obtain ⟨a1, t1, rfl⟩ := List.exists_cons_of_ne_nil h1.1
  obtain ⟨a2, t2, rfl⟩ := List.exists_cons_of_ne_nil h2.1
  obtain ⟨a3, t3, rfl⟩ := List.exists_cons_of_ne_nil h3.1
  obtain ⟨a4, t4, rfl⟩ := List.exists_cons_of_ne_nil h4.1
  simp only [renderLine, List.cons_append, List.append_assoc] at *
  simp [parseLine, e1t, e1d, e2t, e2d, e3t, e3d, e4]

theorem digitChar_isDigit (d : Nat) : isDigitCh (digitChar d) = true := by
  unfold digitChar
  split <;> decide

theorem isDigit_charset {c : Char} (h : isDigitCh c = true) :
    c ≠ ']' ∧ c ≠ '[' ∧ c ≠ '\n' ∧ c ≠ ':' ∧ c ≠ '-' ∧ isSpaceCh c = false ∧ c ≠ '_' := by
  unfold isDigitCh digitVal at h
  split at h <;> first | decide | simp at h

theorem natDecAux_ne_nil {f n : Nat} : natDecAux (f + 1) n ≠ [] := by
  unfold natDecAux
  split
  · simp
  · simp

theorem natDec_ne_nil {n : Nat} : natDec n ≠ [] := natDecAux_ne_nil

theorem mem_natDecAux_isDigit {f n : Nat} {c : Char} (h : c ∈ natDecAux f n) :
    isDigitCh c = true := by
  induction f generalizing n with
  | zero => simp [natDecAux] at h
  | succ f ih =>
    unfold natDecAux at h
    split at h
    · simp at h
      subst h
      exact digitChar_isDigit n
    · rcases List.mem_append.1 h with hm | hm
      · exact ih hm
      · simp at hm
        subst hm
        exact digitChar_isDigit (n % 10)

theorem mem_natDec_isDigit {n : Nat} {c : Char} (h : c ∈ natDec n) : isDigitCh c = true :=
  mem_natDecAux_isDigit h

theorem digitVal_digitChar {d : Nat} (h : d < 10) : digitVal (digitChar d) = some d := by
  interval_cases d <;> rfl

theorem parsePyNatAux_append (acc : Nat) (a b : Str) :
    parsePyNatAux acc (a ++ b)
      = match parsePyNatAux acc a with
        | some v => parsePyNatAux v b
        | none => none := by
  induction a generalizing acc with
  | nil => simp [parsePyNatAux]
  | cons c cs ih =>
    simp only [List.cons_append, parsePyNatAux]
    cases digitVal c with
    | none => rfl
    | some d => exact ih _

theorem parsePyNatAux_natDecAux {f n : Nat} (hf : n < f) (acc : Nat) :
    parsePyNatAux acc (natDecAux f n) = some (acc * 10 ^ (natDecAux f n).length + n) := by
  induction f generalizing n acc with
  | zero => omega
  | succ f ih =>
    unfold natDecAux
    split
    · rename_i hlt
      simp only [parsePyNatAux, digitVal_digitChar hlt, List.length_singleton, pow_one]
      refine congrArg some ?_
      ring
    · rename_i hge
      push_neg at hge
      have hdiv : n / 10 < f := by omega
      rw [parsePyNatAux_append, ih hdiv acc]
      have hm10 : n % 10 < 10 := by omega
      simp only [parsePyNatAux, digitVal_digitChar hm10]
      refine congrArg some ?_
      rw [List.length_append, List.length_singleton]
      calc 10 * (acc * 10 ^ (natDecAux f (n / 10)).length + n / 10) + n % 10
          = acc * (10 ^ (natDecAux f (n / 10)).length * 10) + (10 * (n / 10) + n % 10) := by
            ring
        _ = acc * 10 ^ ((natDecAux f (n / 10)).length + 1) + n := by
            rw [← pow_succ, Nat.div_add_mod]

theorem parsePyNat_natDec (n : Nat) : parsePyNat (natDec n) = some n := by
  unfold parsePyNat
  rw [if_neg natDec_ne_nil]
  have := parsePyNatAux_natDecAux (Nat.lt_succ_self n) 0
  simpa [natDec] using this

theorem natDec_injective : Function.Injective natDec := by
  intro a b hab
  have ha := parsePyNat_natDec a
  have hb := parsePyNat_natDec b
  rw [hab, hb] at ha
  exact (Option.some_injective _ ha).symm

theorem natDec_head_ne_minus {n : Nat} {c : Char} (h : c ∈ natDec n) : c ≠ '-' :=
  (isDigit_charset (mem_natDec_isDigit h)).2.2.2.2.1

theorem parsePyNat_cons_zero {l : Str} :
    parsePyNat ('0' :: l) = parsePyNatAux 0 l := by
  simp [parsePyNat, parsePyNatAux, digitVal]

theorem parsePyNatAux_natDec (n : Nat) : parsePyNatAux 0 (natDec n) = some n := by
  have := parsePyNat_natDec n
  unfold parsePyNat at this
  rw [if_neg natDec_ne_nil] at this
  exact this

theorem parsePyInt_intPad2 (x : Int) : parsePyInt (intPad2 x) = some x := by
  unfold intPad2
  split
  · rename_i hneg
    have hx : (((-x).toNat : Int)) = -x := Int.toNat_of_nonneg (by omega)
    simp [parsePyInt, parsePyNat_natDec, hx]
  · rename_i hpos
    push_neg at hpos
    have hx : ((x.toNat : Int)) = x := Int.toNat_of_nonneg hpos
    unfold pad2
    split
    · simp [parsePyInt, parsePyNat_cons_zero, parsePyNatAux_natDec, hx]
    · obtain ⟨c, cs, hc⟩ := List.exists_cons_of_ne_nil (@natDec_ne_nil x.toNat)
      have hcm : c ∈ natDec x.toNat := by rw [hc]; exact List.mem_cons_self _ _
      rw [hc]
      simp [parsePyInt, if_neg (natDec_head_ne_minus hcm), ← hc, parsePyNat_natDec, hx]

theorem mem_intPad2 {x : Int} {c : Char} (h : c ∈ intPad2 x) :
    c = '-' ∨ isDigitCh c = true := by
  unfold intPad2 at h
  split at h
  · rcases List.mem_cons.1 h with rfl | hm
    · left; rfl
    · right; exact mem_natDec_isDigit hm
  · unfold pad2 at h
    split at h
    · rcases List.mem_cons.1 h with rfl | hm
      · right; decide
      · right; exact mem_natDec_isDigit hm
    · right; exact mem_natDec_isDigit h

theorem intPad2_ne_nil {x : Int} : intPad2 x ≠ [] := by
  unfold intPad2 pad2
  split
  · simp
  · split
    · simp
    · exact natDec_ne_nil

theorem splitOnCh_cons_append (x : Char) (a b : Str) (h : x ∉ a) :
    splitOnCh x (a ++ x :: b) = a :: splitOnCh x b := by
  induction a with
  | nil => simp [splitOnCh]
  | cons c cs ih =>
    simp only [List.mem_cons, not_or] at h
    simp only [List.cons_append, splitOnCh, if_neg (Ne.symm h.1), List.append_eq]
    rw [ih h.2]

theorem splitOnCh_no_sep (x : Char) (a : Str) (h : x ∉ a) :
    splitOnCh x a = [a] := by
  induction a with
  | nil => rfl
  | cons c cs ih =>
    simp only [List.mem_cons, not_or] at h
    simp only [splitOnCh, if_neg (Ne.symm h.1)]
    rw [ih h.2]

theorem splitOnCh_joinLines {ls : List Str} (hne : ls ≠ [])
    (h : ∀ l ∈ ls, '\n' ∉ l) : splitOnCh '\n' (joinLines ls) = ls := by
  induction ls with
  | nil => exact absurd rfl hne
  | cons l rest ih =>
    cases rest with
    | nil =>
      simp only [joinLines]
      exact splitOnCh_no_sep _ _ (h l (List.mem_cons_self _ _))
    | cons l2 rest2 =>
      simp only [joinLines]
      rw [splitOnCh_cons_append _ _ _ (h l (List.mem_cons_self _ _))]
      have := ih (by simp) (fun m hm => h m (List.mem_cons_of_mem _ hm))
      simp only [joinLines] at this
      rw [this]

/-- One insertion step of the stable insertion sort: a later element walks
past every earlier element that is not strictly greater, so equal keys keep
their original relative order, exactly as Python's stable `sorted` does. -/
def insertSorted {α : Type} (lt : α → α → Bool) (a : α) : List α → List α
  | [] => [a]
  | b :: bs => if lt a b then a :: b :: bs else b :: insertSorted lt a bs

/-- Stable ascending sort; extensionally equal to Python's `sorted` with the
strict comparison `lt` derived from the sort key. -/
def pySorted {α : Type} (lt : α → α → Bool) (l : List α) : List α :=
  l.foldl (fun acc x => insertSorted lt x acc) []

theorem insertSorted_perm {α : Type} (lt : α → α → Bool) (a : α) (l : List α) :
    List.Perm (insertSorted lt a l) (a :: l) := by
  induction l with
  | nil => rfl
  | cons b bs ih =>
    unfold insertSorted
    split
    · rfl
    · exact ((ih.cons b).trans (List.Perm.swap a b bs))

theorem pySorted_perm {α : Type} (lt : α → α → Bool) (l : List α) :
    List.Perm (pySorted lt l) l := by
  suffices h : ∀ (l acc : List α),
      List.Perm (l.foldl (fun acc x => insertSorted lt x acc) acc) (acc ++ l) by
    simpa using h l []
  intro l
  induction l with
  | nil => simp
  | cons x xs ih =>
    intro acc
    simp only [List.foldl_cons]
    refine (ih (insertSorted lt x acc)).trans ?_
    have h1 : List.Perm (insertSorted lt x acc ++ xs) ((x :: acc) ++ xs) :=
      (insertSorted_perm lt x acc).append_right xs
    refine h1.trans ?_
    simp only [List.cons_append]
    exact (List.perm_middle).symm

theorem mem_pySorted {α : Type} {lt : α → α → Bool} {l : List α} {x : α} :
    x ∈ pySorted lt l ↔ x ∈ l :=
  (pySorted_perm lt l).mem_iff

theorem length_pySorted {α : Type} (lt : α → α → Bool) (l : List α) :
    (pySorted lt l).length = l.length :=
  (pySorted_perm lt l).length_eq

theorem pairwise_insertSorted {α K : Type} [LinearOrder K] (key : α → K) (a : α)
    {l : List α} (h : l.Pairwise (fun x y => key x ≤ key y)) :
    (insertSorted (fun x y => decide (key x < key y)) a l).Pairwise
      (fun x y => key x ≤ key y) := by
  induction l with
  | nil => simp [insertSorted]
  | cons b bs ih =>
    rw [List.pairwise_cons] at h
    unfold insertSorted
    split
    · rename_i hab
      simp only [decide_eq_true_eq] at hab
      refine List.Pairwise.cons ?_ (List.Pairwise.cons h.1 h.2)
      intro y hy
      rcases List.mem_cons.1 hy with rfl | hy'
      · exact le_of_lt hab
      · exact le_of_lt (lt_of_lt_of_le hab (h.1 y hy'))
    · rename_i hab
      simp only [decide_eq_true_eq, not_lt] at hab
      refine List.Pairwise.cons ?_ (ih h.2)
      intro y hy
      have := (insertSorted_perm (fun x y => decide (key x < key y)) a bs).mem_iff.1 hy
      rcases List.mem_cons.1 this with rfl | hy'
      · exact hab
      · exact h.1 y hy'

theorem pairwise_pySorted {α K : Type} [LinearOrder K] (key : α → K) (l : List α) :
    (pySorted (fun x y => decide (key x < key y)) l).Pairwise
      (fun x y => key x ≤ key y) := by
  suffices h : ∀ (l acc : List α), acc.Pairwise (fun x y => key x ≤ key y) →
      (l.foldl (fun acc x => insertSorted (fun x y => decide (key x < key y)) x acc)
        acc).Pairwise (fun x y => key x ≤ key y) by
    exact h l [] List.Pairwise.nil
  intro l
  induction l with
  | nil => intro acc hacc; simpa using hacc
  | cons x xs ih =>
    intro acc hacc
    simp only [List.foldl_cons]
    exact ih _ (pairwise_insertSorted key x hacc)

/-- Python float modulo `a % b` (for our uses `b > 0`):
`a - b * floor(a / b)`, always in `[0, b)`. -/
def pymodQ (a b : ℚ) : ℚ := a - b * (⌊a / b⌋ : ℤ)

/-- Assembly `f"{h:02d}:{m:02d}:{s:02d}"` of the three timestamp fields. -/
def hmsJoin (a b c : Str) : Str := a ++ [':'] ++ b ++ [':'] ++ c

/-- The `HH:MM:SS` timestamp rendering performed by `convert_to_human_readable`
on a float number of seconds: `h = int(t // 3600)`, `m = int((t % 3600) // 60)`,
`s = int(t % 60)`, each rendered with `{:02d}`. -/
def qTimestamp (t : ℚ) : Str :=
  hmsJoin (intPad2 ⌊t / 3600⌋) (intPad2 ⌊pymodQ t 3600 / 60⌋) (intPad2 ⌊pymodQ t 60⌋)

/-- The `HH:MM:SS` timestamp rendering performed by `merge_chunked_transcripts`
on an integer number of adjusted seconds (Python `//` and `%` on ints are
floor division and nonnegative remainder, i.e. `Int.ediv`/`Int.emod`). -/
def intTimestamp (n : Int) : Str :=
  hmsJoin (intPad2 (n / 3600)) (intPad2 ((n % 3600) / 60)) (intPad2 (n % 60))

theorem mem_hmsJoin {a b c : Str} {x : Char} (h : x ∈ hmsJoin a b c) :
    x ∈ a ∨ x = ':' ∨ x ∈ b ∨ x ∈ c := by
  unfold hmsJoin at h
  simp only [List.mem_append, List.mem_singleton] at h
  tauto

/-- Outcome of decoding a `HH:MM:SS` group inside the merge loop: a part
count other than three is skipped, a non-integer part raises `ValueError`,
otherwise the seconds value `h * 3600 + m * 60 + s` is produced. -/
inductive TsOutcome where
  | skip
  | err
  | val (t : Int)
deriving DecidableEq

def tsParse (g : Str) : TsOutcome :=
  match splitOnCh ':' g with
  | [p1, p2, p3] =>
    match parsePyInt p1, parsePyInt p2, parsePyInt p3 with
    | some h, some m, some s0 => .val (h * 3600 + m * 60 + s0)
    | _, _, _ => .err
  | _ => .skip

/-- Seconds denoted by a `HH:MM:SS` group when it decodes cleanly. -/
def hmsSeconds (g : Str) : Option Int :=
  match tsParse g with
  | .val t => some t
  | _ => none

theorem no_colon_intPad2 {x : Int} : ':' ∉ intPad2 x := by
  intro hmem
  rcases mem_intPad2 hmem with h | h
  · exact absurd h (by decide)
  · exact absurd ((isDigit_charset h).2.2.2.1) (by simp)

theorem splitOnCh_hmsJoin (a b c : Str) (ha : ':' ∉ a) (hb : ':' ∉ b) (hc : ':' ∉ c) :
    splitOnCh ':' (hmsJoin a b c) = [a, b, c] := by
  rw [show hmsJoin a b c = a ++ ':' :: (b ++ ':' :: c) by simp [hmsJoin]]
  rw [splitOnCh_cons_append _ _ _ ha, splitOnCh_cons_append _ _ _ hb, splitOnCh_no_sep _ _ hc]

theorem tsParse_intTimestamp (n : Int) : tsParse (intTimestamp n) = .val n := by
  unfold tsParse intTimestamp
  rw [splitOnCh_hmsJoin _ _ _ no_colon_intPad2 no_colon_intPad2 no_colon_intPad2]
  simp only [parsePyInt_intPad2]
  refine congrArg TsOutcome.val ?_
  omega

theorem hmsSeconds_intTimestamp (n : Int) : hmsSeconds (intTimestamp n) = some n := by
  unfold hmsSeconds
  rw [tsParse_intTimestamp]

theorem mem_intTimestamp_charset {n : Int} {c : Char} (h : c ∈ intTimestamp n) :
    c ≠ ']' ∧ c ≠ '\n' := by
  unfold intTimestamp at h
  have hd : c = ':' ∨ c = '-' ∨ isDigitCh c = true := by
    rcases mem_hmsJoin h with h | h | h | h
    · rcases mem_intPad2 h with h | h
      · exact Or.inr (Or.inl h)
      · exact Or.inr (Or.inr h)
    · exact Or.inl h
    · rcases mem_intPad2 h with h | h
      · exact Or.inr (Or.inl h)
      · exact Or.inr (Or.inr h)
    · rcases mem_intPad2 h with h | h
      · exact Or.inr (Or.inl h)
      · exact Or.inr (Or.inr h)
  rcases hd with rfl | rfl | hd
  · exact ⟨by decide, by decide⟩
  · exact ⟨by decide, by decide⟩
  · exact ⟨(isDigit_charset hd).1, (isDigit_charset hd).2.2.1⟩

theorem intTimestamp_ne_nil {n : Int} : intTimestamp n ≠ [] := by
  unfold intTimestamp hmsJoin
  simp [intPad2_ne_nil]

/-- The seconds value displayed by the float `HH:MM:SS` rendering is the
floor of the float: the rendering truncates sub-second precision only. -/
theorem tsParse_qTimestamp (t : ℚ) : tsParse (qTimestamp t) = .val ⌊t⌋ := by
  unfold tsParse qTimestamp
  rw [splitOnCh_hmsJoin _ _ _ no_colon_intPad2 no_colon_intPad2 no_colon_intPad2]
  simp only [parsePyInt_intPad2]
  refine congrArg TsOutcome.val ?_
  have h60 : pymodQ t 60 = t - 60 * (⌊t / 60⌋ : ℤ) := by unfold pymodQ; norm_num
  have h3600 : pymodQ t 3600 = t - 3600 * (⌊t / 3600⌋ : ℤ) := by unfold pymodQ; norm_num
  have e1 : ⌊pymodQ t 60⌋ = ⌊t⌋ - 60 * ⌊t / 60⌋ := by
    rw [h60, show t - 60 * (⌊t / 60⌋ : ℤ) = t - ((60 * ⌊t / 60⌋ : ℤ) : ℚ) by push_cast; ring,
      Int.floor_sub_int]
  have e2 : ⌊pymodQ t 3600 / 60⌋ = ⌊t / 60⌋ - 60 * ⌊t / 3600⌋ := by
    rw [h3600, show (t - 3600 * (⌊t / 3600⌋ : ℤ)) / 60
        = t / 60 - ((60 * ⌊t / 3600⌋ : ℤ) : ℚ) by push_cast; ring, Int.floor_sub_int]
  rw [e1, e2]
  ring

theorem hmsSeconds_qTimestamp (t : ℚ) : hmsSeconds (qTimestamp t) = some ⌊t⌋ := by
  unfold hmsSeconds
  rw [tsParse_qTimestamp]

theorem mem_qTimestamp_charset {t : ℚ} {c : Char} (h : c ∈ qTimestamp t) :
    c ≠ ']' ∧ c ≠ '\n' := by
  unfold qTimestamp at h
  have hd : c = ':' ∨ c = '-' ∨ isDigitCh c = true := by
    rcases mem_hmsJoin h with h | h | h | h
    · rcases mem_intPad2 h with h | h
      · exact Or.inr (Or.inl h)
      · exact Or.inr (Or.inr h)
    · exact Or.inl h
    · rcases mem_intPad2 h with h | h
      · exact Or.inr (Or.inl h)
      · exact Or.inr (Or.inr h)
    · rcases mem_intPad2 h with h | h
      · exact Or.inr (Or.inl h)
      · exact Or.inr (Or.inr h)
  rcases hd with rfl | rfl | hd
  · exact ⟨by decide, by decide⟩
  · exact ⟨by decide, by decide⟩
  · exact ⟨(isDigit_charset hd).1, (isDigit_charset hd).2.2.1⟩

theorem qTimestamp_ne_nil {t : ℚ} : qTimestamp t ≠ [] := by
  unfold qTimestamp hmsJoin
  simp [intPad2_ne_nil]

/-- On a whole number of seconds the float rendering agrees with the integer
rendering, so concrete transcripts with integral start times evaluate. -/
theorem qTimestamp_intCast (n : Int) : qTimestamp ((n : Int) : ℚ) = intTimestamp n := by
  have h3600 : ⌊((n : ℚ)) / 3600⌋ = n / 3600 := by
    have h := Rat.floor_intCast_div_natCast n 3600
    norm_num at h
    exact h
  have hm3600 : pymodQ (n : ℚ) 3600 = ((n % 3600 : Int) : ℚ) := by
    unfold pymodQ
    rw [h3600, Int.emod_def]
    push_cast
    ring
  have h60 : ⌊((n % 3600 : Int) : ℚ) / 60⌋ = (n % 3600) / 60 := by
    have h := Rat.floor_intCast_div_natCast (n % 3600) 60
    norm_num at h
    exact h
  have hm60 : pymodQ (n : ℚ) 60 = ((n % 60 : Int) : ℚ) := by
    unfold pymodQ
    have h := Rat.floor_intCast_div_natCast n 60
    norm_num at h
    rw [h, Int.emod_def]
    push_cast
    ring
  unfold qTimestamp intTimestamp
  rw [h3600, hm3600, h60, hm60, Int.floor_intCast]

/-- One entry of `results.audio_segments` in a raw Transcribe JSON. -/
structure AudioSegment where
  speaker_label : Str
  start_time : ℚ
  transcript : Str
deriving DecidableEq

/-- One entry of `results.speaker_labels.segments`; `item_times` are the
`start_time` fields of the segment's member items (extracted by the code
into its own record but never used afterwards). -/
structure DiarSegment where
  speaker_label : Str
  start_time : ℚ
  end_time : ℚ
  item_times : List ℚ
deriving DecidableEq

structure SpeakerLabels where
  segments : List DiarSegment
deriving DecidableEq

/-- One entry of `results.items`: `rtype` is the `type` string, `alts` the
`content` of each alternative, and the optional fields mirror keys read via
`item.get(...)` with defaults. -/
structure RawItem where
  rtype : Str
  alts : List Str
  item_id : Option Nat
  start_time : Option ℚ
  end_time : Option ℚ
deriving DecidableEq

structure TResults where
  audio_segments : Option (List AudioSegment)
  speaker_labels : Option SpeakerLabels
  items : Option (List RawItem)
deriving DecidableEq

structure TranscriptData where
  results : Option TResults
deriving DecidableEq

/-- A value of `items_dict`: pronunciation items keep their timing, all
other item types keep only content and their type string. -/
inductive DItem where
  | pron (content : Str) (st et : ℚ)
  | other (content : Str) (rtype : Str)
deriving DecidableEq

def DItem.content : DItem → Str
  | .pron c _ _ => c
  | .other c _ => c

def DItem.typeStr : DItem → Str
  | .pron _ _ _ => "pronunciation".data
  | .other _ r => r

/-- The `start_time` stored for a dict item; only ever read on
pronunciation items by the code. -/
def DItem.startQ : DItem → ℚ
  | .pron _ st _ => st
  | .other _ _ => 0

/-- Python dict assignment `d[k] = v`: overwrite in place, else append
(dicts preserve insertion order, and overwriting keeps the original slot). -/
def insertAssoc {β : Type} (k : Nat) (v : β) : List (Nat × β) → List (Nat × β)
  | [] => [(k, v)]
  | (k', v') :: rest => if k = k' then (k, v) :: rest else (k', v') :: insertAssoc k v rest

/-- Python dict lookup `d[k]` / membership `k in d`. -/
def lookupAssoc {β : Type} (k : Nat) : List (Nat × β) → Option β
  | [] => none
  | (k', v) :: rest => if k = k' then some v else lookupAssoc k rest

/-- One iteration of the `items_dict` construction loop: skip items with no
alternatives, key by `int(item.get("id", 0))`, store timing only for
pronunciation items (with `float(item.get("start_time", "0"))` defaults). -/
def itemsDictStep (d : List (Nat × DItem)) (it : RawItem) : List (Nat × DItem) :=
  match it.alts with
  | [] => d
  | c :: _ =>
    if it.rtype = "pronunciation".data then
      insertAssoc (it.item_id.getD 0) (DItem.pron c (it.start_time.getD 0) (it.end_time.getD 0)) d
    else
      insertAssoc (it.item_id.getD 0) (DItem.other c it.rtype) d

def buildItemsDict (its : List RawItem) : List (Nat × DItem) :=
  its.foldl itemsDictStep []

/-- The items attributed to one diarization segment: pronunciation items
whose `start_time` lies in `[segment_start, segment_end)`, collected in dict
order and stably sorted by `start_time`. -/
def attributedItems (dict : List (Nat × DItem)) (sg : DiarSegment) : List (Nat × DItem) :=
  pySorted (fun x y => decide (x.2.startQ < y.2.startQ))
    (dict.filterMap (fun kv =>
      match kv.2 with
      | DItem.pron c st et =>
        if sg.start_time ≤ st ∧ st < sg.end_time then some (kv.1, DItem.pron c st et) else none
      | DItem.other _ _ => none))

/-- One iteration of the segment text loop: a space before every
non-punctuation item except the first, then the item content, then the
content of the directly following item when it is punctuation. -/
def segTextStep (dict : List (Nat × DItem)) (acc : Str) (kv : Nat × DItem) : Str :=
  let acc1 := if acc ≠ [] ∧ kv.2.typeStr ≠ "punctuation".data then acc ++ [' '] else acc
  let acc2 := acc1 ++ kv.2.content
  match lookupAssoc (kv.1 + 1) dict with
  | some it2 => if it2.typeStr = "punctuation".data then acc2 ++ it2.content else acc2
  | none => acc2

def buildSegText (dict : List (Nat × DItem)) (sitems : List (Nat × DItem)) : Str :=
  sitems.foldl (segTextStep dict) []

/-- One canonical segment before serialization: the enumeration index that
feeds `seg_<idx>`, the speaker label, the float start time, and the text. -/
structure Entry where
  segIdx : Nat
  speaker : Str
  start : ℚ
  text : Str
deriving DecidableEq

def segStr (n : Nat) : Str := "seg_".data ++ natDec n

/-- Serialization `f"[{segment_id}][{speaker}][{timestamp}] {text}"`. -/
def renderEntry (e : Entry) : Str :=
  renderLine (segStr e.segIdx) e.speaker (qTimestamp e.start) e.text

/-- The `enumerate` loop of the audio-segments branch (input already sorted). -/
def groupedAux : Nat → List AudioSegment → List Entry
  | _, [] => []
  | i, sg :: rest => ⟨i, sg.speaker_label, sg.start_time, sg.transcript⟩ :: groupedAux (i + 1) rest

/-- Audio-segments branch of `convert_to_human_readable`: sort by
`start_time`, emit one entry per segment with `segment_id = seg_<enum idx>`. -/
def groupedEntries (segs : List AudioSegment) : List Entry :=
  groupedAux 0 (pySorted (fun a b => decide (a.start_time < b.start_time)) segs)

/-- The `enumerate` loop of the diarization branch: segments with zero
attributed pronunciation items produce no entry, but the enumeration index
still advances. -/
def diarAux (dict : List (Nat × DItem)) : Nat → List DiarSegment → List Entry
  | _, [] => []
  | i, sg :: rest =>
    if attributedItems dict sg = [] then diarAux dict (i + 1) rest
    else ⟨i, sg.speaker_label, sg.start_time, buildSegText dict (attributedItems dict sg)⟩
      :: diarAux dict (i + 1) rest

/-- Token-plus-diarization branch of `convert_to_human_readable`. -/
def diarEntries (sl : SpeakerLabels) (its : List RawItem) : List Entry :=
  diarAux (buildItemsDict its) 0
    (pySorted (fun a b => decide (a.start_time < b.start_time)) sl.segments)

def errUnexpectedFormat : Str := "Could not process transcript: unexpected format.".data

/-- The message of the catch-all `except` branch of the conversion; in this
typed embedding the conversion body is total, so the branch is unreachable. -/
def errGeneric : Str := "Could not process transcript.".data

/-- The entries a raw result normalizes to (empty on malformed shape). -/
def entriesOf (d : TranscriptData) : List Entry :=
  match d.results with
  | none => []
  | some r =>
    match r.speaker_labels, r.items with
    | some sl, some its =>
      (match r.audio_segments with
       | some segs => groupedEntries segs
       | none => diarEntries sl its)
    | _, _ => []

/-- `convert_to_human_readable`: guard the expected top-level shape, prefer
the audio-segments branch, else the diarization branch; one line per emitted
segment, newline-joined. -/
def convert_to_human_readable (d : TranscriptData) : Str :=
  match d.results with
  | none => errUnexpectedFormat
  | some r =>
    match r.speaker_labels, r.items with
    | some sl, some its =>
      (match r.audio_segments with
       | some segs => joinLines ((groupedEntries segs).map renderEntry)
       | none => joinLines ((diarEntries sl its).map renderEntry))
    | _, _ => errUnexpectedFormat

theorem convert_eq_joinLines {d : TranscriptData} {r : TResults} {sl : SpeakerLabels}
    {its : List RawItem} (hr : d.results = some r) (hsl : r.speaker_labels = some sl)
    (hits : r.items = some its) :
    convert_to_human_readable d = joinLines ((entriesOf d).map renderEntry) := by
  unfold convert_to_human_readable entriesOf
  simp only [hr, hsl, hits]
  cases r.audio_segments <;> rfl

theorem entriesOf_grouped {d : TranscriptData} {r : TResults} {sl : SpeakerLabels}
    {its : List RawItem} {segs : List AudioSegment} (hr : d.results = some r)
    (hsl : r.speaker_labels = some sl) (hits : r.items = some its)
    (hseg : r.audio_segments = some segs) : entriesOf d = groupedEntries segs := by
  unfold entriesOf
  simp only [hr, hsl, hits, hseg]

theorem entriesOf_diar {d : TranscriptData} {r : TResults} {sl : SpeakerLabels}
    {its : List RawItem} (hr : d.results = some r) (hsl : r.speaker_labels = some sl)
    (hits : r.items = some its) (hseg : r.audio_segments = none) :
    entriesOf d = diarEntries sl its := by
  unfold entriesOf
  simp only [hr, hsl, hits, hseg]

theorem groupedAux_ids (i : Nat) (l : List AudioSegment) :
    (groupedAux i l).map Entry.segIdx = List.range' i l.length := by
  induction l generalizing i with
  | nil => rfl
  | cons sg rest ih =>
    simp only [groupedAux, List.map_cons, List.length_cons, List.range'_succ]
    rw [ih]

theorem groupedAux_starts (i : Nat) (l : List AudioSegment) :
    (groupedAux i l).map Entry.start = l.map AudioSegment.start_time := by
  induction l generalizing i with
  | nil => rfl
  | cons sg rest ih =>
    simp only [groupedAux, List.map_cons]
    rw [ih]

theorem diarAux_cons_emit {dict : List (Nat × DItem)} {sg : DiarSegment}
    {rest : List DiarSegment} {i : Nat} (h : attributedItems dict sg ≠ []) :
    diarAux dict i (sg :: rest)
      = ⟨i, sg.speaker_label, sg.start_time, buildSegText dict (attributedItems dict sg)⟩
        :: diarAux dict (i + 1) rest := by
  simp only [diarAux, if_neg h]

theorem diarAux_cons_skip {dict : List (Nat × DItem)} {sg : DiarSegment}
    {rest : List DiarSegment} {i : Nat} (h : attributedItems dict sg = []) :
    diarAux dict i (sg :: rest) = diarAux dict (i + 1) rest := by
  simp only [diarAux, if_pos h]

theorem diarAux_ids_ge {dict : List (Nat × DItem)} {l : List DiarSegment} :
    ∀ {i : Nat} {e : Entry}, e ∈ diarAux dict i l → i ≤ e.segIdx := by
  induction l with
  | nil => intro i e h; simp [diarAux] at h
  | cons sg rest ih =>
    intro i e h
    by_cases hsg : attributedItems dict sg = []
    · rw [diarAux_cons_skip hsg] at h
      exact Nat.le_of_succ_le (ih h)
    · rw [diarAux_cons_emit hsg] at h
      rcases List.mem_cons.1 h with rfl | h'
      · exact Nat.le_refl i
      · exact Nat.le_of_succ_le (ih h')

theorem diarAux_ids_pairwise (dict : List (Nat × DItem)) (l : List DiarSegment) :
    ∀ i : Nat, ((diarAux dict i l).map Entry.segIdx).Pairwise (· < ·) := by
  induction l with
  | nil => intro i; simp [diarAux]
  | cons sg rest ih =>
    intro i
    by_cases hsg : attributedItems dict sg = []
    · rw [diarAux_cons_skip hsg]
      exact ih (i + 1)
    · rw [diarAux_cons_emit hsg]
      simp only [List.map_cons, List.pairwise_cons]
      refine ⟨?_, ih (i + 1)⟩
      intro j hj
      rcases List.mem_map.1 hj with ⟨e, he, rfl⟩
      exact Nat.lt_of_succ_le (diarAux_ids_ge he)

theorem diarAux_ids_all_kept {dict : List (Nat × DItem)} {l : List DiarSegment}
    (h : ∀ sg ∈ l, attributedItems dict sg ≠ []) :
    ∀ i : Nat, (diarAux dict i l).map Entry.segIdx = List.range' i l.length := by
  induction l with
  | nil => intro i; rfl
  | cons sg rest ih =>
    intro i
    rw [diarAux_cons_emit (h sg (List.mem_cons_self _ _))]
    simp only [List.map_cons, List.length_cons, List.range'_succ]
    rw [ih (fun s hs => h s (List.mem_cons_of_mem _ hs))]

theorem diarAux_starts_sublist (dict : List (Nat × DItem)) (l : List DiarSegment) :
    ∀ i : Nat, ((diarAux dict i l).map Entry.start).Sublist (l.map DiarSegment.start_time) := by
  induction l with
  | nil => intro i; simp [diarAux]
  | cons sg rest ih =>
    intro i
    by_cases hsg : attributedItems dict sg = []
    · rw [diarAux_cons_skip hsg]
      exact (ih (i + 1)).cons _
    · rw [diarAux_cons_emit hsg]
      simp only [List.map_cons]
      exact (ih (i + 1)).cons₂ _

theorem groupedEntries_starts_sorted (segs : List AudioSegment) :
    ((groupedEntries segs).map Entry.start).Pairwise (· ≤ ·) := by
  unfold groupedEntries
  rw [groupedAux_starts]
  exact (List.pairwise_map).2 (pairwise_pySorted AudioSegment.start_time segs)

theorem diarEntries_starts_sorted (sl : SpeakerLabels) (its : List RawItem) :
    ((diarEntries sl its).map Entry.start).Pairwise (· ≤ ·) := by
  unfold diarEntries
  refine List.Pairwise.sublist (diarAux_starts_sublist _ _ 0) ?_
  exact (List.pairwise_map).2 (pairwise_pySorted DiarSegment.start_time sl.segments)

/-- Float start times of the entries emitted by the Normalizer are
non-decreasing, in both input shapes. -/
theorem entriesOf_starts_sorted (d : TranscriptData) :
    ((entriesOf d).map Entry.start).Pairwise (· ≤ ·) := by
  cases hr : d.results with
  | none => simp [entriesOf, hr]
  | some r =>
    cases hsl : r.speaker_labels with
    | none => simp [entriesOf, hr, hsl]
    | some sl =>
      cases hits : r.items with
      | none => simp [entriesOf, hr, hsl, hits]
      | some its =>
        cases hseg : r.audio_segments with
        | none =>
          rw [entriesOf_diar hr hsl hits hseg]
          exact diarEntries_starts_sorted sl its
        | some segs =>
          rw [entriesOf_grouped hr hsl hits hseg]
          exact groupedEntries_starts_sorted segs

theorem not_mem_takeUntil (x : Char) (l : Str) : x ∉ takeUntil x l := by
  induction l with
  | nil => simp [takeUntil]
  | cons c cs ih =>
    unfold takeUntil
    split
    · simp
    · rename_i hne
      intro hmem
      rcases List.mem_cons.1 hmem with rfl | hm
      · exact hne rfl
      · exact ih hm

/-- Every successful line-pattern match has nonempty bracket groups without
`]` and a nonempty text group without a newline. -/
theorem parseLine_groups {l : Str} {g : Str × Str × Str × Str} (h : parseLine l = some g) :
    (g.1 ≠ [] ∧ ']' ∉ g.1) ∧ (g.2.1 ≠ [] ∧ ']' ∉ g.2.1)
      ∧ (g.2.2.1 ≠ [] ∧ ']' ∉ g.2.2.1) ∧ (g.2.2.2 ≠ [] ∧ '\n' ∉ g.2.2.2) := by
  unfold parseLine at h
  split at h
  · rename_i r0
    split at h
    · exact absurd h (by simp)
    · rename_i h1
      split at h
      · rename_i r1
        split at h
        · exact absurd h (by simp)
        · rename_i h2
          split at h
          · rename_i r2
            split at h
            · exact absurd h (by simp)
            · rename_i h3
              split at h
              · rename_i r3
                split at h
                · exact absurd h (by simp)
                · rename_i h4
                  rcases Option.some_injective _ h with rfl
                  exact ⟨⟨h1, not_mem_takeUntil _ _⟩, ⟨h2, not_mem_takeUntil _ _⟩,
                    ⟨h3, not_mem_takeUntil _ _⟩, ⟨h4, not_mem_takeUntil _ _⟩⟩
              · exact absurd h (by simp)
          · exact absurd h (by simp)
      · exact absurd h (by simp)
  · exact absurd h (by simp)

/-- Metadata of one chunked sub-job handed to `merge_chunked_transcripts`:
the chunk index, the declared start offset in seconds, and the raw result. -/
structure ChunkTranscript where
  chunk_index : Nat
  chunk_start_time : Int
  data : TranscriptData
deriving DecidableEq

/-- The mutable state of one `merge_chunked_transcripts` call: the emitted
lines, the global segment counter, the chunk-speaker mapping (a dict in
insertion order) and the global speaker counter. -/
structure MState where
  lines : List Str
  segCtr : Nat
  spkMap : List (Str × Str)
  spkCtr : Nat
deriving DecidableEq

def spkStr (n : Nat) : Str := "spk_".data ++ natDec n

/-- The dict key `f"chunk_{chunk_index}_{speaker}"`. -/
def chunkKey (ci : Nat) (spk : Str) : Str :=
  "chunk_".data ++ natDec ci ++ '_' :: spk

def lookupStrAssoc (k : Str) : List (Str × Str) → Option Str
  | [] => none
  | (k', v) :: rest => if k = k' then some v else lookupStrAssoc k rest

/-- `speaker_mapping` access: reuse the global label of a known
`(chunk, local speaker)` key, otherwise assign `spk_<counter>` fresh. -/
def lookupOrAssign (st : MState) (key : Str) : Str × MState :=
  match lookupStrAssoc key st.spkMap with
  | some g => (g, st)
  | none =>
    (spkStr st.spkCtr,
      { st with spkMap := st.spkMap ++ [(key, spkStr st.spkCtr)], spkCtr := st.spkCtr + 1 })

/-- Emission of one adjusted segment line: adjusted timestamp
`local + chunk_start_time`, global speaker label, dense global segment id. -/
def emitState (ci : Nat) (off : Int) (st : MState) (spk text : Str) (t : Int) : MState :=
  { (lookupOrAssign st (chunkKey ci spk)).2 with
    lines := (lookupOrAssign st (chunkKey ci spk)).2.lines
      ++ [renderLine (segStr st.segCtr) (lookupOrAssign st (chunkKey ci spk)).1
            (intTimestamp (t + off)) text],
    segCtr := st.segCtr + 1 }

/-- Outcome of the per-line control flow of the merge loop: the line is
skipped, or one segment is emitted, or `int()` raised a `ValueError`. -/
inductive LineOutcome where
  | skip
  | emit (spk text : Str) (t : Int)
  | err
deriving DecidableEq

/-- The per-line parsing of `merge_chunked_transcripts`: strip, skip empty
lines; skip lines not matching the line pattern; split the matched
timestamp on `:`, skipping arities other than three (with a warning);
parse the three parts with `int` (failure raises); on success the line
emits its speaker group, text group, and local seconds value. -/
def classifyLine (line : Str) : LineOutcome :=
  if stripWS line = [] then .skip
  else
    match parseLine (stripWS line) with
    | none => .skip
    | some g =>
      match tsParse g.2.2.1 with
      | .skip => .skip
      | .err => .err
      | .val t => .emit g.2.1 g.2.2.2 t

/-- Processing of one line inside `merge_chunked_transcripts`, interpreting
the parse outcome on the merge state. -/
def procLine (ci : Nat) (off : Int) (st : MState) (line : Str) : Except Unit MState :=
  match classifyLine line with
  | .skip => .ok st
  | .err => .error ()
  | .emit spk text t => .ok (emitState ci off st spk text t)

def procLines (ci : Nat) (off : Int) : MState → List Str → Except Unit MState
  | st, [] => .ok st
  | st, l :: ls =>
    match procLine ci off st l with
    | .ok st' => procLines ci off st' ls
    | .error e => .error e

/-- Processing of one chunk: convert its raw result to the human-readable
form, then process it line by line. -/
def procChunk (st : MState) (c : ChunkTranscript) : Except Unit MState :=
  procLines c.chunk_index c.chunk_start_time st
    (splitOnCh '\n' (convert_to_human_readable c.data))

def mergeChunks : MState → List ChunkTranscript → Except Unit MState
  | st, [] => .ok st
  | st, c :: cs =>
    match procChunk st c with
    | .ok st' => mergeChunks st' cs
    | .error e => .error e

def initMState : MState := ⟨[], 0, [], 0⟩

def mergeRun (chunks : List ChunkTranscript) : Except Unit MState :=
  mergeChunks initMState chunks

/-- `merge_chunked_transcripts`: the newline-joined merged transcript, or an
uncaught `ValueError` (`Except.error`). -/
def merge_chunked_transcripts (chunks : List ChunkTranscript) : Except Unit Str :=
  (mergeRun chunks).map (fun st => joinLines st.lines)

/-- Observation: the timestamp (in seconds) a consumer of the line format
reads back from one line. -/
def lineTs (l : Str) : Option Int := (parseLine l).bind (fun g => hmsSeconds g.2.2.1)

/-- Observation: the speaker group a consumer reads back from one line. -/
def lineSpk (l : Str) : Option Str := (parseLine l).map (fun g => g.2.1)

def extractTsList (L : List Str) : List Int := L.filterMap lineTs

/-- The chunk-local timestamps `merge_chunked_transcripts` reads from one
line of a chunk transcript (before offset adjustment); `none` when the line
is skipped or raises. -/
def lineLocalTs (line : Str) : Option Int :=
  match classifyLine line with
  | .emit _ _ t => some t
  | _ => none

/-- The chunk-local timestamp sequence of one raw result, as the merger
parses it back from the serialized transcript. -/
def localTsList (d : TranscriptData) : List Int :=
  (splitOnCh '\n' (convert_to_human_readable d)).filterMap lineLocalTs

/-- Invariant of the speaker mapping: its values are exactly
`spk_0 .. spk_<counter-1>` in assignment order. -/
def SpkMapOK (st : MState) : Prop :=
  st.spkMap.map Prod.snd = (List.range st.spkCtr).map spkStr

theorem spkStr_wf (j : Nat) : spkStr j ≠ [] ∧ ']' ∉ spkStr j ∧ '\n' ∉ spkStr j := by
  unfold spkStr
  refine ⟨by simp, ?_, ?_⟩
  · intro h
    rcases List.mem_append.1 h with h | h
    · revert h; decide
    · exact absurd ((isDigit_charset (mem_natDec_isDigit h)).1) (by simp)
  · intro h
    rcases List.mem_append.1 h with h | h
    · revert h; decide
    · exact absurd ((isDigit_charset (mem_natDec_isDigit h)).2.2.1) (by simp)

theorem segStr_wf (j : Nat) : segStr j ≠ [] ∧ ']' ∉ segStr j ∧ '\n' ∉ segStr j := by
  unfold segStr
  refine ⟨by simp, ?_, ?_⟩
  · intro h
    rcases List.mem_append.1 h with h | h
    · revert h; decide
    · exact absurd ((isDigit_charset (mem_natDec_isDigit h)).1) (by simp)
  · intro h
    rcases List.mem_append.1 h with h | h
    · revert h; decide
    · exact absurd ((isDigit_charset (mem_natDec_isDigit h)).2.2.1) (by simp)

theorem lookupStrAssoc_mem {k v : Str} {l : List (Str × Str)}
    (h : lookupStrAssoc k l = some v) : v ∈ l.map Prod.snd := by
  induction l with
  | nil => simp [lookupStrAssoc] at h
  | cons p rest ih =>
    unfold lookupStrAssoc at h
    split at h
    · rcases Option.some_injective _ h with rfl
      simp
    · simp only [List.map_cons, List.mem_cons]
      exact Or.inr (ih h)

theorem lookupOrAssign_spk {st : MState} {k : Str} (h : SpkMapOK st) :
    ∃ j, (lookupOrAssign st k).1 = spkStr j := by
  unfold lookupOrAssign
  cases hl : lookupStrAssoc k st.spkMap with
  | some g =>
    have := lookupStrAssoc_mem hl
    rw [h] at this
    rcases List.mem_map.1 this with ⟨j, _, rfl⟩
    exact ⟨j, rfl⟩
  | none => exact ⟨st.spkCtr, rfl⟩

theorem lookupOrAssign_spkMapOK {st : MState} {k : Str} (h : SpkMapOK st) :
    SpkMapOK (lookupOrAssign st k).2 := by
  unfold lookupOrAssign
  cases hl : lookupStrAssoc k st.spkMap with
  | some g => exact h
  | none =>
    unfold SpkMapOK at h ⊢
    simp only [List.map_append, List.map_cons, List.map_nil, h, List.range_succ]

theorem emitState_spkMapOK {ci : Nat} {off : Int} {st : MState} {spk text : Str}
    {t : Int} (h : SpkMapOK st) : SpkMapOK (emitState ci off st spk text t) := by
  unfold emitState SpkMapOK
  have := @lookupOrAssign_spkMapOK st (chunkKey ci spk) h
  exact this

theorem emitState_lines {ci : Nat} {off : Int} {st : MState} {spk text : Str} {t : Int} :
    (emitState ci off st spk text t).lines
      = st.lines ++ [renderLine (segStr st.segCtr) (lookupOrAssign st (chunkKey ci spk)).1
          (intTimestamp (t + off)) text] := by
  unfold emitState
  have : (lookupOrAssign st (chunkKey ci spk)).2.lines = st.lines := by
    unfold lookupOrAssign
    cases lookupStrAssoc (chunkKey ci spk) st.spkMap <;> rfl
  rw [this]

theorem lineTs_emitted {n : Nat} {g text : Str} {t : Int}
    (hg : g ≠ [] ∧ ']' ∉ g ∧ '\n' ∉ g) (htext : text ≠ [] ∧ '\n' ∉ text) :
    lineTs (renderLine (segStr n) g (intTimestamp t) text) = some t := by
  unfold lineTs
  rw [parseLine_render ⟨(segStr_wf n).1, (segStr_wf n).2.1⟩ ⟨hg.1, hg.2.1⟩
    ⟨intTimestamp_ne_nil, fun hm => (mem_intTimestamp_charset hm).1 rfl⟩ htext]
  exact hmsSeconds_intTimestamp t

/-- Text emitted for a line comes from a successful line-pattern match, so
it is nonempty and newline-free. -/
theorem classify_emit_text {line spk text : Str} {t : Int}
    (h : classifyLine line = .emit spk text t) : text ≠ [] ∧ '\n' ∉ text := by
  unfold classifyLine at h
  split at h
  · exact absurd h (by simp)
  · split at h
    · exact absurd h (by simp)
    · rename_i g hparse
      split at h
      · exact absurd h (by simp)
      · exact absurd h (by simp)
      · injection h with h1 h2 h3
        subst h2
        have := parseLine_groups hparse
        exact ⟨this.2.2.2.1, this.2.2.2.2⟩

theorem emitState_extractTs {ci : Nat} {off : Int} {st : MState} {spk text : Str}
    {t : Int} (hok : SpkMapOK st) (htext : text ≠ [] ∧ '\n' ∉ text) :
    extractTsList (emitState ci off st spk text t).lines
      = extractTsList st.lines ++ [t + off] := by
  rw [emitState_lines]
  unfold extractTsList
  rw [List.filterMap_append]
  obtain ⟨j, hj⟩ := @lookupOrAssign_spk _ (chunkKey ci spk) hok
  rw [hj]
  rw [show List.filterMap lineTs [renderLine (segStr st.segCtr) (spkStr j)
      (intTimestamp (t + off)) text] = [t + off] by
    simp [List.filterMap,
      lineTs_emitted ⟨(spkStr_wf j).1, (spkStr_wf j).2.1, (spkStr_wf j).2.2⟩ htext]]

theorem procLines_ok {ci : Nat} {off : Int} :
    ∀ (lines : List Str) (st st' : MState), SpkMapOK st →
      procLines ci off st lines = .ok st' →
      SpkMapOK st' ∧ extractTsList st'.lines
        = extractTsList st.lines ++ (lines.filterMap lineLocalTs).map (· + off) := by
  intro lines
  induction lines with
  | nil =>
    intro st st' hok h
    simp only [procLines, Except.ok.injEq] at h
    subst h
    exact ⟨hok, by simp⟩
  | cons l ls ih =>
    intro st st' hok h
    unfold procLines at h
    cases hc : classifyLine l with
    | skip =>
      rw [show procLine ci off st l = .ok st by simp [procLine, hc]] at h
      obtain ⟨h1, h2⟩ := ih st st' hok h
      refine ⟨h1, ?_⟩
      rw [h2]
      simp [lineLocalTs, hc]
    | err =>
      rw [show procLine ci off st l = .error () by simp [procLine, hc]] at h
      exact absurd h (by simp)
    | emit spk text t =>
      rw [show procLine ci off st l = .ok (emitState ci off st spk text t) by
        simp [procLine, hc]] at h
      obtain ⟨h1, h2⟩ := ih _ st' (emitState_spkMapOK hok) h
      refine ⟨h1, ?_⟩
      rw [h2, emitState_extractTs hok (classify_emit_text hc)]
      simp [lineLocalTs, hc]

theorem procChunk_ok {st st' : MState} {c : ChunkTranscript} (hok : SpkMapOK st)
    (h : procChunk st c = .ok st') :
    SpkMapOK st' ∧ extractTsList st'.lines
      = extractTsList st.lines ++ (localTsList c.data).map (· + c.chunk_start_time) :=
  procLines_ok _ st st' hok h

theorem mergeChunks_ok :
    ∀ (chunks : List ChunkTranscript) (st st' : MState), SpkMapOK st →
      mergeChunks st chunks = .ok st' →
      SpkMapOK st' ∧ extractTsList st'.lines = extractTsList st.lines
        ++ (chunks.map (fun c => (localTsList c.data).map (· + c.chunk_start_time))).flatten := by
  intro chunks
  induction chunks with
  | nil =>
    intro st st' hok h
    simp only [mergeChunks, Except.ok.injEq] at h
    subst h
    exact ⟨hok, by simp⟩
  | cons c cs ih =>
    intro st st' hok h
    unfold mergeChunks at h
    cases hpc : procChunk st c with
    | error e => rw [hpc] at h; exact absurd h (by simp)
    | ok st1 =>
      rw [hpc] at h
      obtain ⟨h1, h2⟩ := procChunk_ok hok hpc
      obtain ⟨h3, h4⟩ := ih st1 st' h1 h
      refine ⟨h3, ?_⟩
      rw [h4, h2]
      simp [List.append_assoc]

theorem initMState_spkMapOK : SpkMapOK initMState := rfl

/-- Timestamp characterization of the merge: on success, the merged
transcript's timestamp sequence is the concatenation, in chunk order, of
each chunk's locally parsed timestamps shifted by that chunk's offset. -/
theorem mergeRun_ts {chunks : List ChunkTranscript} {st' : MState}
    (h : mergeRun chunks = .ok st') :
    extractTsList st'.lines
      = (chunks.map (fun c => (localTsList c.data).map (· + c.chunk_start_time))).flatten := by
  have := mergeChunks_ok chunks initMState st' initMState_spkMapOK h
  simpa [initMState, extractTsList] using this.2

theorem mergeRun_spkMapOK {chunks : List ChunkTranscript} {st' : MState}
    (h : mergeRun chunks = .ok st') : SpkMapOK st' :=
  (mergeChunks_ok chunks initMState st' initMState_spkMapOK h).1

theorem spkStr_injective : Function.Injective spkStr := by
  intro a b hab
  unfold spkStr at hab
  have := congrArg (List.drop ("spk_".data).length) hab
  rw [List.drop_left, List.drop_left] at this
  exact natDec_injective this

/-- Distinct keys in the speaker mapping always carry distinct global
speaker labels. -/
theorem spkMapOK_inj {st : MState} (h : SpkMapOK st) :
    ∀ p ∈ st.spkMap, ∀ q ∈ st.spkMap, p.1 ≠ q.1 → p.2 ≠ q.2 := by
  have hnd : (st.spkMap.map Prod.snd).Nodup := by
    rw [h]
    exact (List.nodup_range _).map (fun a b => by exact fun hab => spkStr_injective hab)
  have hpw : st.spkMap.Pairwise (fun a b => a.2 ≠ b.2) := (List.pairwise_map).1 hnd
  have hsym : Symmetric (fun a b : Str × Str => a.2 ≠ b.2) := fun a b hab => (Ne.symm hab)
  intro p hp q hq hne
  exact hpw.forall hsym hp hq (fun he => hne (by rw [he]))

/-- Keys built for the same local label in different chunks differ: the
decimal chunk index contains no underscore, so it is recovered uniquely. -/
theorem chunkKey_inj_chunk {i j : Nat} {s : Str} (hne : i ≠ j) :
    chunkKey i s ≠ chunkKey j s := by
  intro h
  unfold chunkKey at h
  simp only [List.append_assoc] at h
  have h2 := congrArg (List.drop ("chunk_".data).length) h
  rw [List.drop_left, List.drop_left] at h2
  have hui : '_' ∉ natDec i := fun hm =>
    absurd ((isDigit_charset (mem_natDec_isDigit hm)).2.2.2.2.2.2) (by simp)
  have huj : '_' ∉ natDec j := fun hm =>
    absurd ((isDigit_charset (mem_natDec_isDigit hm)).2.2.2.2.2.2) (by simp)
  have h3 := congrArg (takeUntil '_') h2
  rw [takeUntil_append _ hui, takeUntil_append _ huj] at h3
  exact hne (natDec_injective h3)

/-- A parsed citation occurrence: the matched marker text, the denoted
segment-id strings, and the span `[start, stop)` in the analysis text. -/
structure SegRef where
  original : Str
  segments : List Str
  start : Nat
  stop : Nat
deriving DecidableEq

/-- Anchored match of `\[seg_(\d+)\]`: the digit group is the maximal digit
run (a shorter run would put a digit where `]` is required, so maximal
munch coincides with the regex semantics); returns the group and the
length of the whole match. -/
def trySingle : Str → Option (Str × Nat)
  | '[' :: 's' :: 'e' :: 'g' :: '_' :: rest =>
    if rest.takeWhile isDigitCh = [] then none
    else
      match rest.dropWhile isDigitCh with
      | ']' :: _ => some (rest.takeWhile isDigitCh, (rest.takeWhile isDigitCh).length + 6)
      | _ => none
  | _ => none

/-- Anchored match of `\[seg_(\d+)-(\d+)\]`. -/
def tryRange1 : Str → Option ((Str × Str) × Nat)
  | '[' :: 's' :: 'e' :: 'g' :: '_' :: rest =>
    if rest.takeWhile isDigitCh = [] then none
    else
      match rest.dropWhile isDigitCh with
      | '-' :: rest2 =>
        if rest2.takeWhile isDigitCh = [] then none
        else
          match rest2.dropWhile isDigitCh with
          | ']' :: _ =>
            some ((rest.takeWhile isDigitCh, rest2.takeWhile isDigitCh),
              (rest.takeWhile isDigitCh).length + (rest2.takeWhile isDigitCh).length + 7)
          | _ => none
      | _ => none
  | _ => none

/-- Anchored match of `\[seg_(\d+)-seg_(\d+)\]`. -/
def tryRange2 : Str → Option ((Str × Str) × Nat)
  | '[' :: 's' :: 'e' :: 'g' :: '_' :: rest =>
    if rest.takeWhile isDigitCh = [] then none
    else
      match rest.dropWhile isDigitCh with
      | '-' :: 's' :: 'e' :: 'g' :: '_' :: rest2 =>
        if rest2.takeWhile isDigitCh = [] then none
        else
          match rest2.dropWhile isDigitCh with
          | ']' :: _ =>
            some ((rest.takeWhile isDigitCh, rest2.takeWhile isDigitCh),
              (rest.takeWhile isDigitCh).length + (rest2.takeWhile isDigitCh).length + 11)
          | _ => none
      | _ => none
  | _ => none

/-- `re.finditer` over one pattern: scan left to right, at each position
try the anchored match; on success record `(position, groups, length)` and
continue after the match, else advance one character.  Fuel-based for
kernel evaluation; each step consumes at least one character. -/
def scanAux {α : Type} (tryFn : Str → Option (α × Nat)) :
    Nat → Nat → Str → List (Nat × α × Nat)
  | 0, _, _ => []
  | _ + 1, _, [] => []
  | f + 1, pos, c :: cs =>
    match tryFn (c :: cs) with
    | some (a, len) => (pos, a, len) :: scanAux tryFn f (pos + len) (List.drop len (c :: cs))
    | none => scanAux tryFn f (pos + 1) cs

def scanMatches {α : Type} (tryFn : Str → Option (α × Nat)) (text : Str) :
    List (Nat × α × Nat) :=
  scanAux tryFn (text.length + 1) 0 text

/-- Value of a captured digit group under Python `int` (total: captured
groups are nonempty digit runs). -/
def natOfDigits (ds : Str) : Nat := (parsePyNatAux 0 ds).getD 0

/-- `[f"seg_{i}" for i in range(a, b + 1)]`: empty when `b < a`. -/
def rangeSegList (a b : Nat) : List Str := (List.range' a (b + 1 - a)).map segStr

def singleRefs (text : Str) : List SegRef :=
  (scanMatches trySingle text).map (fun m =>
    { original := '[' :: 's' :: 'e' :: 'g' :: '_' :: (m.2.1 ++ [']']),
      segments := ["seg_".data ++ m.2.1],
      start := m.1, stop := m.1 + m.2.2 })

def rangeRefs1 (text : Str) : List SegRef :=
  (scanMatches tryRange1 text).map (fun m =>
    { original := '[' :: 's' :: 'e' :: 'g' :: '_' :: (m.2.1.1 ++ '-' :: m.2.1.2 ++ [']']),
      segments := rangeSegList (natOfDigits m.2.1.1) (natOfDigits m.2.1.2),
      start := m.1, stop := m.1 + m.2.2 })

def rangeRefs2 (text : Str) : List SegRef :=
  (scanMatches tryRange2 text).map (fun m =>
    { original := '[' :: 's' :: 'e' :: 'g' :: '_' ::
        (m.2.1.1 ++ '-' :: 's' :: 'e' :: 'g' :: '_' :: m.2.1.2 ++ [']']),
      segments := rangeSegList (natOfDigits m.2.1.1) (natOfDigits m.2.1.2),
      start := m.1, stop := m.1 + m.2.2 })

/-- Python sort key `(x["start"], -(x["end"] - x["start"]))` as a strict
comparison: earlier start first, and at equal starts the longer match first. -/
def refLt (a b : SegRef) : Bool :=
  decide ((a.start : Int) < (b.start : Int)
    ∨ (a.start = b.start ∧ ((b.stop : Int) - (b.start : Int)) < ((a.stop : Int) - (a.start : Int))))

/-- The greedy overlap filter: keep a match only when its start is at or
after the previously kept match's end (`last_end` starts at `-1`). -/
def acceptRefs : Int → List SegRef → List SegRef
  | _, [] => []
  | lastEnd, r :: rs =>
    if lastEnd ≤ (r.start : Int) then r :: acceptRefs (r.stop : Int) rs
    else acceptRefs lastEnd rs

/-- `parse_segment_references`: collect the raw matches of the three
patterns, sort them by `(start, -length)` (stably), and keep the greedy
non-overlapping selection. -/
def parse_segment_references (text : Str) : List SegRef :=
  acceptRefs (-1) (pySorted refLt (singleRefs text ++ rangeRefs1 text ++ rangeRefs2 text))

/-- The `VIDEOLINK[<url>]ENDLINK` annotation appended after a resolved marker. -/
def videoLinkWrap (url : Str) : Str := "VIDEOLINK[".data ++ url ++ "]ENDLINK".data

/-- `generate_video_url_with_timestamp`: obtain a presigned URL from the
external capability (modelled as a function of the timestamp that may
throw) and append the `#t=` fragment; any exception is caught here and
yields `None`. -/
def generate_video_url_with_timestamp (linkGen : Str → Except Unit Str) (ts : Str) :
    Option Str :=
  match linkGen ts with
  | .ok u => some (u ++ '#' :: 't' :: '=' :: ts)
  | .error _ => none

/-- The body of the rewrite loop for one accepted citation: `segments[0]`
raises `IndexError` on an empty range; a marker whose first segment id is
absent from the index, or whose link generation yields no URL, leaves the
text unchanged; otherwise the marker span is replaced by the marker
followed by the wrapped URL. -/
def replaceOne (mapping : List (Str × Str)) (linkGen : Str → Except Unit Str)
    (acc : Str) (r : SegRef) : Except Unit Str :=
  match r.segments with
  | [] => .error ()
  | s0 :: _ =>
    match lookupStrAssoc s0 mapping with
    | some ts =>
      match generate_video_url_with_timestamp linkGen ts with
      | some url =>
        .ok (acc.take r.start ++ (r.original ++ videoLinkWrap url) ++ acc.drop r.stop)
      | none => .ok acc
    | none => .ok acc

def processRefs (mapping : List (Str × Str)) (linkGen : Str → Except Unit Str) :
    Str → List SegRef → Except Unit Str
  | acc, [] => .ok acc
  | acc, r :: rs =>
    match replaceOne mapping linkGen acc r with
    | .ok acc' => processRefs mapping linkGen acc' rs
    | .error e => .error e

/-- The body of `replace_segment_citations_with_links` inside its `try`:
parse the references and process them in reverse position order. -/
def replaceBody (text : Str) (mapping : List (Str × Str))
    (linkGen : Str → Except Unit Str) : Except Unit Str :=
  processRefs mapping linkGen text (parse_segment_references text).reverse

/-- `replace_segment_citations_with_links`: any exception inside the body is
caught and the original analysis text is returned. -/
def replace_segment_citations_with_links (text : Str) (mapping : List (Str × Str))
    (linkGen : Str → Except Unit Str) : Str :=
  match replaceBody text mapping linkGen with
  | .ok out => out
  | .error _ => text

/-- Modelled from the spec: the per-citation resolution policy of section
4.4 — anchor a citation at its first segment id, look it up in the index,
and build the link; `none` when the citation cannot be resolved. -/
def resolveRef (mapping : List (Str × Str)) (linkGen : Str → Except Unit Str)
    (r : SegRef) : Option Str :=
  match r.segments with
  | [] => none
  | s0 :: _ => (lookupStrAssoc s0 mapping).bind (generate_video_url_with_timestamp linkGen)

def annPiece (mapping : List (Str × Str)) (linkGen : Str → Except Unit Str)
    (r : SegRef) : Str :=
  match resolveRef mapping linkGen r with
  | some url => videoLinkWrap url
  | none => []

/-- Modelled from the spec: left-to-right single-pass rewriting — copy the
text between citations verbatim, keep every marker, and append the
annotation after each resolvable marker. -/
def rebuildFrom (mapping : List (Str × Str)) (linkGen : Str → Except Unit Str)
    (text : Str) : Nat → List SegRef → Str
  | b, [] => text.drop b
  | b, r :: rs =>
    (text.drop b).take (r.start - b) ++ r.original ++ annPiece mapping linkGen r
      ++ rebuildFrom mapping linkGen text r.stop rs

def specRewriteCitations (text : Str) (mapping : List (Str × Str))
    (linkGen : Str → Except Unit Str) : Str :=
  rebuildFrom mapping linkGen text 0 (parse_segment_references text)

/-- Well-formed, ordered, non-overlapping spans over a text, each carrying
its own slice of the text as `original`. -/
def SpansOK (text : Str) : Nat → List SegRef → Prop
  | _, [] => True
  | b, r :: rs =>
    b ≤ r.start ∧ r.start < r.stop ∧ r.stop ≤ text.length
      ∧ r.original = (text.drop r.start).take (r.stop - r.start) ∧ SpansOK text r.stop rs

/-- Validity of one citation occurrence against the text it was parsed
from: a nonempty span inside the text whose slice is the stored marker. -/
def RefValid (text : Str) (r : SegRef) : Prop :=
  r.start < r.stop ∧ r.stop ≤ text.length
    ∧ r.original = (text.drop r.start).take (r.stop - r.start)

theorem scanAux_valid {α : Type} {tryFn : Str → Option (α × Nat)}
    (hTry : ∀ l a len, tryFn l = some (a, len) → 1 ≤ len ∧ len ≤ l.length) {text : Str} :
    ∀ (f pos : Nat) (cs : Str), cs = text.drop pos →
      ∀ m ∈ scanAux tryFn f pos cs,
        pos ≤ m.1 ∧ m.1 + m.2.2 ≤ text.length
          ∧ tryFn (text.drop m.1) = some (m.2.1, m.2.2) := by
  intro f
  induction f with
  | zero => intro pos cs hcs m hm; simp [scanAux] at hm
  | succ f ih =>
    intro pos cs hcs m hm
    cases cs with
    | nil => simp [scanAux] at hm
    | cons c cs' =>
      unfold scanAux at hm
      cases htry : tryFn (c :: cs') with
      | some alen =>
        rw [htry] at hm
        rcases List.mem_cons.1 hm with rfl | hm'
        · refine ⟨Nat.le_refl _, ?_, ?_⟩
          · show pos + alen.2 ≤ text.length
            have h1 := (hTry _ _ _ htry).2
            have h2 : (c :: cs').length = text.length - pos := by
              rw [hcs, List.length_drop]
            simp only [List.length_cons] at h1 h2
            omega
          · show tryFn (text.drop pos) = some (alen.1, alen.2)
            rw [← hcs]
            exact htry
        · have hdrop : List.drop alen.2 (c :: cs') = text.drop (pos + alen.2) := by
            rw [hcs, List.drop_drop]
          obtain ⟨ha, hb, hc⟩ := ih (pos + alen.2) _ hdrop m hm'
          exact ⟨by omega, hb, hc⟩
      | none =>
        rw [htry] at hm
        have hdrop : cs' = text.drop (pos + 1) := by
          have : List.drop 1 (c :: cs') = text.drop (pos + 1) := by
            rw [hcs, List.drop_drop]
          simpa using this
        obtain ⟨ha, hb, hc⟩ := ih (pos + 1) _ hdrop m hm
        exact ⟨by omega, hb, hc⟩

theorem trySingle_spec {l ds : Str} {len : Nat} (h : trySingle l = some (ds, len)) :
    len = ds.length + 6 ∧ 1 ≤ len ∧ len ≤ l.length
      ∧ l.take len = '[' :: 's' :: 'e' :: 'g' :: '_' :: (ds ++ [']']) := by
  unfold trySingle at h
  split at h
  · rename_i rest
    split at h
    · exact absurd h (by simp)
    · rename_i hne
      split at h
      · rename_i tail hdw
        simp only [Option.some.injEq, Prod.mk.injEq] at h
        obtain ⟨hds, hlen⟩ := h
        subst hds
        subst hlen
        obtain ⟨T, hT⟩ : ∃ T, rest.takeWhile isDigitCh = T := ⟨_, rfl⟩
        rw [hT]
        have hrest : T ++ ']' :: tail = rest := by
          rw [← hT, ← hdw]
          exact List.takeWhile_append_dropWhile isDigitCh rest
        have hrlen : rest.length = T.length + 1 + tail.length := by
          rw [← hrest]
          simp
          omega
        refine ⟨rfl, by omega, ?_, ?_⟩
        · simp only [List.length_cons]
          omega
        · rw [show T.length + 6 = (T.length + 1) + 5 by omega]
          rw [show List.take ((T.length + 1) + 5) ('[' :: 's' :: 'e' :: 'g' :: '_' :: rest)
              = '[' :: 's' :: 'e' :: 'g' :: '_' :: List.take (T.length + 1) rest from rfl]
          rw [← hrest, List.take_append 1]
          simp
      · exact absurd h (by simp)
  · exact absurd h (by simp)

theorem tryRange1_spec {l d1 d2 : Str} {len : Nat} (h : tryRange1 l = some ((d1, d2), len)) :
    len = d1.length + d2.length + 7 ∧ 1 ≤ len ∧ len ≤ l.length
      ∧ l.take len = '[' :: 's' :: 'e' :: 'g' :: '_' :: (d1 ++ '-' :: d2 ++ [']']) := by
  unfold tryRange1 at h
  split at h
  · rename_i rest
    split at h
    · exact absurd h (by simp)
    · rename_i hne
      split at h
      · rename_i rest2 hdw
        split at h
        · exact absurd h (by simp)
        · rename_i hne2
          split at h
          · rename_i tail2 hdw2
            simp only [Option.some.injEq, Prod.mk.injEq] at h
            obtain ⟨⟨hd1, hd2⟩, hlen⟩ := h
            subst hd1
            subst hd2
            subst hlen
            obtain ⟨T1, hT1⟩ : ∃ T, rest.takeWhile isDigitCh = T := ⟨_, rfl⟩
            obtain ⟨T2, hT2⟩ : ∃ T, rest2.takeWhile isDigitCh = T := ⟨_, rfl⟩
            rw [hT1, hT2]
            have hrest : T1 ++ '-' :: rest2 = rest := by
              rw [← hT1, ← hdw]
              exact List.takeWhile_append_dropWhile isDigitCh rest
            have hrest2 : T2 ++ ']' :: tail2 = rest2 := by
              rw [← hT2, ← hdw2]
              exact List.takeWhile_append_dropWhile isDigitCh rest2
            have hrlen2 : rest2.length = T2.length + 1 + tail2.length := by
              rw [← hrest2]
              simp
              omega
            have hrlen : rest.length = T1.length + 1 + rest2.length := by
              rw [← hrest]
              simp
              omega
            refine ⟨rfl, by omega, ?_, ?_⟩
            · simp only [List.length_cons]
              omega
            · rw [show T1.length + T2.length + 7 = (T1.length + (T2.length + 2)) + 5 by omega]
              rw [show List.take ((T1.length + (T2.length + 2)) + 5)
                    ('[' :: 's' :: 'e' :: 'g' :: '_' :: rest)
                  = '[' :: 's' :: 'e' :: 'g' :: '_'
                    :: List.take (T1.length + (T2.length + 2)) rest from rfl]
              rw [← hrest, List.take_append (T2.length + 2)]
              rw [show List.take (T2.length + 2) ('-' :: rest2)
                  = '-' :: List.take (T2.length + 1) rest2 from rfl]
              rw [← hrest2, List.take_append 1]
              simp
          · exact absurd h (by simp)
      · exact absurd h (by simp)
  · exact absurd h (by simp)

theorem tryRange2_spec {l d1 d2 : Str} {len : Nat} (h : tryRange2 l = some ((d1, d2), len)) :
    len = d1.length + d2.length + 11 ∧ 1 ≤ len ∧ len ≤ l.length
      ∧ l.take len = '[' :: 's' :: 'e' :: 'g' :: '_'
          :: (d1 ++ '-' :: 's' :: 'e' :: 'g' :: '_' :: d2 ++ [']']) := by
  unfold tryRange2 at h
  split at h
  · rename_i rest
    split at h
    · exact absurd h (by simp)
    · rename_i hne
      split at h
      · rename_i rest2 hdw
        split at h
        · exact absurd h (by simp)
        · rename_i hne2
          split at h
          · rename_i tail2 hdw2
            simp only [Option.some.injEq, Prod.mk.injEq] at h
            obtain ⟨⟨hd1, hd2⟩, hlen⟩ := h
            subst hd1
            subst hd2
            subst hlen
            obtain ⟨T1, hT1⟩ : ∃ T, rest.takeWhile isDigitCh = T := ⟨_, rfl⟩
            obtain ⟨T2, hT2⟩ : ∃ T, rest2.takeWhile isDigitCh = T := ⟨_, rfl⟩
            rw [hT1, hT2]
            have hrest : T1 ++ '-' :: 's' :: 'e' :: 'g' :: '_' :: rest2 = rest := by
              rw [← hT1, ← hdw]
              exact List.takeWhile_append_dropWhile isDigitCh rest
            have hrest2 : T2 ++ ']' :: tail2 = rest2 := by
              rw [← hT2, ← hdw2]
              exact List.takeWhile_append_dropWhile isDigitCh rest2
            have hrlen2 : rest2.length = T2.length + 1 + tail2.length := by
              rw [← hrest2]
              simp
              omega
            have hrlen : rest.length = T1.length + 5 + rest2.length := by
              rw [← hrest]
              simp
              omega
            refine ⟨rfl, by omega, ?_, ?_⟩
            · simp only [List.length_cons]
              omega
            · rw [show T1.length + T2.length + 11 = (T1.length + (T2.length + 6)) + 5 by omega]
              rw [show List.take ((T1.length + (T2.length + 6)) + 5)
                    ('[' :: 's' :: 'e' :: 'g' :: '_' :: rest)
                  = '[' :: 's' :: 'e' :: 'g' :: '_'
                    :: List.take (T1.length + (T2.length + 6)) rest from rfl]
              rw [← hrest, List.take_append (T2.length + 6)]
              rw [show List.take (T2.length + 6) ('-' :: 's' :: 'e' :: 'g' :: '_' :: rest2)
                  = '-' :: 's' :: 'e' :: 'g' :: '_'
                    :: List.take (T2.length + 1) rest2 from rfl]
              rw [← hrest2, List.take_append 1]
              simp
          · exact absurd h (by simp)
      · exact absurd h (by simp)
  · exact absurd h (by simp)

theorem singleRefs_valid {text : Str} {r : SegRef} (h : r ∈ singleRefs text) :
    RefValid text r := by
  unfold singleRefs scanMatches at h
  rcases List.mem_map.1 h with ⟨m, hm, rfl⟩
  have hTry : ∀ l a len, trySingle l = some (a, len) → 1 ≤ len ∧ len ≤ l.length :=
    fun l a len hl => ⟨(trySingle_spec hl).2.1, (trySingle_spec hl).2.2.1⟩
  obtain ⟨hpos, hlen, htry⟩ := scanAux_valid hTry (text.length + 1) 0 text (List.drop_zero text).symm m hm
  obtain ⟨hl1, hl2, hl3, hl4⟩ := trySingle_spec htry
  refine ⟨by show m.1 < m.1 + m.2.2; omega, hlen, ?_⟩
  show '[' :: 's' :: 'e' :: 'g' :: '_' :: (m.2.1 ++ [']'])
    = (text.drop m.1).take (m.1 + m.2.2 - m.1)
  rw [show m.1 + m.2.2 - m.1 = m.2.2 by omega]
  exact hl4.symm

theorem rangeRefs1_valid {text : Str} {r : SegRef} (h : r ∈ rangeRefs1 text) :
    RefValid text r := by
  unfold rangeRefs1 scanMatches at h
  rcases List.mem_map.1 h with ⟨m, hm, rfl⟩
  have hTry : ∀ l a len, tryRange1 l = some (a, len) → 1 ≤ len ∧ len ≤ l.length :=
    fun l a len hl => ⟨(@tryRange1_spec l a.1 a.2 len hl).2.1,
      (@tryRange1_spec l a.1 a.2 len hl).2.2.1⟩
  obtain ⟨hpos, hlen, htry⟩ := scanAux_valid hTry (text.length + 1) 0 text (List.drop_zero text).symm m hm
  obtain ⟨hl1, hl2, hl3, hl4⟩ := @tryRange1_spec _ m.2.1.1 m.2.1.2 _ htry
  refine ⟨by show m.1 < m.1 + m.2.2; omega, hlen, ?_⟩
  show '[' :: 's' :: 'e' :: 'g' :: '_' :: (m.2.1.1 ++ '-' :: m.2.1.2 ++ [']'])
    = (text.drop m.1).take (m.1 + m.2.2 - m.1)
  rw [show m.1 + m.2.2 - m.1 = m.2.2 by omega]
  exact hl4.symm

theorem rangeRefs2_valid {text : Str} {r : SegRef} (h : r ∈ rangeRefs2 text) :
    RefValid text r := by
  unfold rangeRefs2 scanMatches at h
  rcases List.mem_map.1 h with ⟨m, hm, rfl⟩
  have hTry : ∀ l a len, tryRange2 l = some (a, len) → 1 ≤ len ∧ len ≤ l.length :=
    fun l a len hl => ⟨(@tryRange2_spec l a.1 a.2 len hl).2.1,
      (@tryRange2_spec l a.1 a.2 len hl).2.2.1⟩
  obtain ⟨hpos, hlen, htry⟩ := scanAux_valid hTry (text.length + 1) 0 text (List.drop_zero text).symm m hm
  obtain ⟨hl1, hl2, hl3, hl4⟩ := @tryRange2_spec _ m.2.1.1 m.2.1.2 _ htry
  refine ⟨by show m.1 < m.1 + m.2.2; omega, hlen, ?_⟩
  show '[' :: 's' :: 'e' :: 'g' :: '_'
      :: (m.2.1.1 ++ '-' :: 's' :: 'e' :: 'g' :: '_' :: m.2.1.2 ++ [']'])
    = (text.drop m.1).take (m.1 + m.2.2 - m.1)
  rw [show m.1 + m.2.2 - m.1 = m.2.2 by omega]
  exact hl4.symm

theorem rawRefs_valid {text : Str} {r : SegRef}
    (h : r ∈ singleRefs text ++ rangeRefs1 text ++ rangeRefs2 text) : RefValid text r := by
  rcases List.mem_append.1 h with h' | h'
  · rcases List.mem_append.1 h' with h'' | h''
    · exact singleRefs_valid h''
    · exact rangeRefs1_valid h''
  · exact rangeRefs2_valid h'

theorem acceptRefs_sublist : ∀ (e : Int) (l : List SegRef), (acceptRefs e l).Sublist l := by
  intro e l
  induction l generalizing e with
  | nil => simp [acceptRefs]
  | cons r rs ih =>
    unfold acceptRefs
    split
    · exact (ih _).cons₂ _
    · exact (ih _).cons _

theorem mem_parse_valid {text : Str} {r : SegRef}
    (h : r ∈ parse_segment_references text) : RefValid text r := by
  unfold parse_segment_references at h
  have h1 := (acceptRefs_sublist _ _).mem h
  have h2 := (pySorted_perm refLt _).mem_iff.1 h1
  exact rawRefs_valid h2

theorem acceptRefs_spansOK {text : Str} :
    ∀ {l : List SegRef}, (∀ r ∈ l, RefValid text r) →
      ∀ b : Nat, SpansOK text b (acceptRefs (b : Int) l) := by
  intro l
  induction l with
  | nil => intro _ b; trivial
  | cons r rs ih =>
    intro hv b
    unfold acceptRefs
    split
    · rename_i hguard
      have hbs : b ≤ r.start := by exact_mod_cast hguard
      obtain ⟨hv1, hv2, hv3⟩ := hv r (List.mem_cons_self _ _)
      exact ⟨hbs, hv1, hv2, hv3, ih (fun x hx => hv x (List.mem_cons_of_mem _ hx)) r.stop⟩
    · exact ih (fun x hx => hv x (List.mem_cons_of_mem _ hx)) b

theorem acceptRefs_init_spansOK {text : Str} {l : List SegRef}
    (hv : ∀ r ∈ l, RefValid text r) : SpansOK text 0 (acceptRefs (-1) l) := by
  cases l with
  | nil => trivial
  | cons r rs =>
    unfold acceptRefs
    rw [if_pos (by omega : (-1 : Int) ≤ (r.start : Int))]
    obtain ⟨hv1, hv2, hv3⟩ := hv r (List.mem_cons_self _ _)
    exact ⟨Nat.zero_le _, hv1, hv2, hv3,
      acceptRefs_spansOK (fun x hx => hv x (List.mem_cons_of_mem _ hx)) r.stop⟩

theorem parse_spansOK (text : Str) :
    SpansOK text 0 (parse_segment_references text) := by
  unfold parse_segment_references
  refine acceptRefs_init_spansOK (fun x hx => ?_)
  exact rawRefs_valid ((pySorted_perm refLt _).mem_iff.1 hx)

theorem spansOK_chain {text : Str} :
    ∀ {refs : List SegRef} {b : Nat}, SpansOK text b refs →
      List.Chain' (fun a b => a.stop ≤ b.start) refs := by
  intro refs
  induction refs with
  | nil => intro b _; simp
  | cons r rs ih =>
    intro b h
    obtain ⟨h1, h2, h3, h4, h5⟩ := h
    cases rs with
    | nil => simp
    | cons r2 rs2 =>
      rw [List.chain'_cons]
      exact ⟨h5.1, ih h5⟩

theorem processRefs_single (m : List (Str × Str)) (g : Str → Except Unit Str)
    (acc : Str) (r : SegRef) : processRefs m g acc [r] = replaceOne m g acc r := by
  unfold processRefs
  cases replaceOne m g acc r <;> rfl

theorem processRefs_cons (m : List (Str × Str)) (g : Str → Except Unit Str)
    (acc : Str) (r : SegRef) (rs : List SegRef) :
    processRefs m g acc (r :: rs)
      = match replaceOne m g acc r with
        | .ok acc' => processRefs m g acc' rs
        | .error e => .error e := rfl

theorem processRefs_append (m : List (Str × Str)) (g : Str → Except Unit Str) :
    ∀ (xs ys : List SegRef) (acc : Str),
      processRefs m g acc (xs ++ ys)
        = match processRefs m g acc xs with
          | .ok a => processRefs m g a ys
          | .error e => .error e := by
  intro xs
  induction xs with
  | nil => intro ys acc; rfl
  | cons x xs ih =>
    intro ys acc
    rw [List.cons_append, processRefs_cons, processRefs_cons]
    cases replaceOne m g acc x with
    | ok a => exact ih ys a
    | error e => rfl

theorem replaceOne_ok {m : List (Str × Str)} {g : Str → Except Unit Str} {acc : Str}
    {r : SegRef} (h : r.segments ≠ []) : ∃ acc', replaceOne m g acc r = .ok acc' := by
  obtain ⟨orig, segs, st1, st2⟩ := r
  cases segs with
  | nil => simp at h
  | cons s0 tl =>
    simp only [replaceOne]
    cases lookupStrAssoc s0 m with
    | none => exact ⟨acc, rfl⟩
    | some ts =>
      show ∃ acc' : Str, (match generate_video_url_with_timestamp g ts with
        | some url =>
          Except.ok (List.take st1 acc ++ (orig ++ videoLinkWrap url) ++ List.drop st2 acc)
        | none => (Except.ok acc : Except Unit Str)) = Except.ok acc'
      cases generate_video_url_with_timestamp g ts with
      | none => exact ⟨acc, rfl⟩
      | some url => exact ⟨_, rfl⟩

theorem processRefs_err {m : List (Str × Str)} {g : Str → Except Unit Str} :
    ∀ (refs : List SegRef) (acc : Str), (∃ r ∈ refs, r.segments = []) →
      processRefs m g acc refs = .error () := by
  intro refs
  induction refs with
  | nil => intro acc h; simp at h
  | cons r rs ih =>
    intro acc hex
    by_cases hres : r.segments = []
    · have hro : replaceOne m g acc r = .error () := by
        simp only [replaceOne, hres]
      rw [processRefs_cons, hro]
    · obtain ⟨acc', hacc⟩ := @replaceOne_ok m g acc r hres
      rw [processRefs_cons, hacc]
      rcases hex with ⟨r', hr', hseg⟩
      rcases List.mem_cons.1 hr' with rfl | hr''
      · exact absurd hseg hres
      · exact ih acc' ⟨r', hr'', hseg⟩

/-- Core refinement: processing the accepted citations in reverse position
order with in-place splicing (the implementation) equals the spec's
left-to-right single-pass rewrite, for any well-formed non-overlapping
citation list whose segment sets are nonempty. -/
theorem processRefs_reverse_eq (m : List (Str × Str)) (g : Str → Except Unit Str)
    (text : Str) :
    ∀ (refs : List SegRef) (b : Nat), SpansOK text b refs →
      (∀ r ∈ refs, r.segments ≠ []) →
      processRefs m g text refs.reverse
        = .ok (text.take b ++ rebuildFrom m g text b refs) := by
  intro refs
  induction refs with
  | nil =>
    intro b _ _
    show Except.ok text = _
    rw [show rebuildFrom m g text b [] = text.drop b from rfl, List.take_append_drop]
  | cons r rs ih =>
    intro b hsp hne
    obtain ⟨hb, hlt, hle, horig, hsp'⟩ := hsp
    rw [List.reverse_cons, processRefs_append]
    rw [ih r.stop hsp' (fun x hx => hne x (List.mem_cons_of_mem _ hx))]
    show processRefs m g (text.take r.stop ++ rebuildFrom m g text r.stop rs) [r]
      = Except.ok (text.take b ++ rebuildFrom m g text b (r :: rs))
    rw [processRefs_single]
    have hlenA : (text.take r.stop).length = r.stop := by
      rw [List.length_take]
      exact min_eq_left hle
    have hF1 : (text.take r.stop ++ rebuildFrom m g text r.stop rs).take r.start
        = text.take r.start := by
      rw [List.take_append_of_le_length (by omega), List.take_take, min_eq_left (by omega)]
    have hF2 : (text.take r.stop ++ rebuildFrom m g text r.stop rs).drop r.stop
        = rebuildFrom m g text r.stop rs := by
      rw [List.drop_append_eq_append_drop, List.drop_eq_nil_of_le (by omega), hlenA]
      simp
    have hF3 : text.take b ++ (text.drop b).take (r.start - b) = text.take r.start := by
      conv_rhs => rw [show r.start = b + (r.start - b) by omega, List.take_add]
    have hF4 : text.take r.start ++ r.original = text.take r.stop := by
      rw [horig]
      conv_rhs => rw [show r.stop = r.start + (r.stop - r.start) by omega, List.take_add]
    have hrne := hne r (List.mem_cons_self _ _)
    obtain ⟨s0, tl, hseg⟩ : ∃ s0 tl, r.segments = s0 :: tl := by
      cases hs : r.segments with
      | nil => exact absurd hs hrne
      | cons a b => exact ⟨a, b, rfl⟩
    rw [show rebuildFrom m g text b (r :: rs)
        = (text.drop b).take (r.start - b) ++ r.original ++ annPiece m g r
          ++ rebuildFrom m g text r.stop rs from rfl]
    cases hlk : lookupStrAssoc s0 m with
    | none =>
      have h1 : replaceOne m g (text.take r.stop ++ rebuildFrom m g text r.stop rs) r
          = .ok (text.take r.stop ++ rebuildFrom m g text r.stop rs) := by
        simp only [replaceOne, hseg, hlk]
      have h2 : annPiece m g r = [] := by
        simp only [annPiece, resolveRef, hseg, hlk, Option.none_bind]
      rw [h1, h2]
      refine congrArg Except.ok ?_
      simp only [List.append_nil, ← List.append_assoc]
      rw [hF3, hF4]
    | some ts =>
      cases hgen : generate_video_url_with_timestamp g ts with
      | none =>
        have h1 : replaceOne m g (text.take r.stop ++ rebuildFrom m g text r.stop rs) r
            = .ok (text.take r.stop ++ rebuildFrom m g text r.stop rs) := by
          simp only [replaceOne, hseg, hlk, hgen]
        have h2 : annPiece m g r = [] := by
          simp only [annPiece, resolveRef, hseg, hlk, Option.some_bind, hgen]
        rw [h1, h2]
        refine congrArg Except.ok ?_
        simp only [List.append_nil, ← List.append_assoc]
        rw [hF3, hF4]
      | some url =>
        have h1 : replaceOne m g (text.take r.stop ++ rebuildFrom m g text r.stop rs) r
            = .ok ((text.take r.stop ++ rebuildFrom m g text r.stop rs).take r.start
                ++ (r.original ++ videoLinkWrap url)
                ++ (text.take r.stop ++ rebuildFrom m g text r.stop rs).drop r.stop) := by
          simp only [replaceOne, hseg, hlk, hgen]
        have h2 : annPiece m g r = videoLinkWrap url := by
          simp only [annPiece, resolveRef, hseg, hlk, Option.some_bind, hgen]
        rw [h1, hF1, hF2, h2]
        refine congrArg Except.ok ?_
        simp only [← List.append_assoc]
        rw [hF3]

/-- On nonempty segment sets, the caught body succeeds and computes the
spec-side left-to-right rewrite. -/
theorem replaceBody_ok_eq {text : Str} {m : List (Str × Str)} {g : Str → Except Unit Str}
    (hne : ∀ r ∈ parse_segment_references text, r.segments ≠ []) :
    replaceBody text m g = .ok (specRewriteCitations text m g) := by
  unfold replaceBody specRewriteCitations
  have := processRefs_reverse_eq m g text (parse_segment_references text) 0
    (parse_spansOK text) hne
  simpa using this

theorem replace_eq_spec {text : Str} {m : List (Str × Str)} {g : Str → Except Unit Str}
    (hne : ∀ r ∈ parse_segment_references text, r.segments ≠ []) :
    replace_segment_citations_with_links text m g = specRewriteCitations text m g := by
  unfold replace_segment_citations_with_links
  rw [replaceBody_ok_eq hne]

/-- When the body raises (only possible through `segments[0]` on an empty
range set), the catch-all returns the original text unchanged. -/
theorem replaceBody_err_eq_text {text : Str} {m : List (Str × Str)}
    {g : Str → Except Unit Str} (h : replaceBody text m g = .error ()) :
    replace_segment_citations_with_links text m g = text := by
  unfold replace_segment_citations_with_links
  rw [h]

theorem replace_empty_range_eq_text {text : Str} {m : List (Str × Str)}
    {g : Str → Except Unit Str}
    (hex : ∃ r ∈ parse_segment_references text, r.segments = []) :
    replace_segment_citations_with_links text m g = text := by
  apply replaceBody_err_eq_text
  unfold replaceBody
  refine processRefs_err _ _ ?_
  rcases hex with ⟨r, hr, hseg⟩
  exact ⟨r, List.mem_reverse.2 hr, hseg⟩

theorem dropWhile_eq_self_of_head {l : Str}
    (h : ∀ c, l.head? = some c → isSpaceCh c = false) :
    l.dropWhile isSpaceCh = l := by
  cases l with
  | nil => rfl
  | cons c cs =>
    rw [List.dropWhile_cons, if_neg]
    simp [h c rfl]

theorem stripWS_eq_self {l : Str}
    (h1 : ∀ c, l.head? = some c → isSpaceCh c = false)
    (h2 : ∀ c, l.getLast? = some c → isSpaceCh c = false) : stripWS l = l := by
  unfold stripWS
  rw [dropWhile_eq_self_of_head h1]
  rw [dropWhile_eq_self_of_head (fun c hc => h2 c (by rwa [List.head?_reverse] at hc))]
  exact List.reverse_reverse l

/-- A well-formed emitted entry: speaker and text are nonempty and free of
`]` and newlines, and the text does not end in whitespace, so that the
serialized line survives `strip()` and re-parses to the same groups. -/
def EntryWF (e : Entry) : Prop :=
  e.speaker ≠ [] ∧ ']' ∉ e.speaker ∧ '\n' ∉ e.speaker
    ∧ e.text ≠ [] ∧ '\n' ∉ e.text
    ∧ (∀ c, e.text.getLast? = some c → isSpaceCh c = false)

theorem mem_renderLine {g1 g2 g3 g4 : Str} {c : Char} (h : c ∈ renderLine g1 g2 g3 g4) :
    c ∈ g1 ∨ c ∈ g2 ∨ c ∈ g3 ∨ c ∈ g4 ∨ c = '[' ∨ c = ']' ∨ c = ' ' := by
  unfold renderLine at h
  simp only [List.mem_append, List.mem_cons] at h
  tauto

theorem getLast?_append_of {l t : Str} {c : Char} (h : t.getLast? = some c) :
    (l ++ t).getLast? = some c := by
  rw [List.getLast?_append, h]
  rfl

theorem getLast?_cons_of {a c : Char} {l : Str} (h : l.getLast? = some c) :
    (a :: l).getLast? = some c := by
  rw [show a :: l = [a] ++ l from rfl]
  exact getLast?_append_of h

theorem renderLine_getLast {g1 g2 g3 g4 : Str} {c : Char} (hg : g4.getLast? = some c) :
    (renderLine g1 g2 g3 g4).getLast? = some c := by
  unfold renderLine
  repeat
    first
      | exact hg
      | apply getLast?_cons_of
      | apply getLast?_append_of

theorem renderEntry_ne_nil {e : Entry} : renderEntry e ≠ [] := by
  unfold renderEntry renderLine
  simp

theorem stripWS_renderEntry {e : Entry} (hwf : EntryWF e) :
    stripWS (renderEntry e) = renderEntry e := by
  apply stripWS_eq_self
  · intro c hc
    have hh : (renderEntry e).head? = some '[' := rfl
    rw [hh] at hc
    obtain rfl : '[' = c := Option.some_injective _ hc
    decide
  · intro c hc
    cases hgl : e.text.getLast? with
    | none =>
      rw [List.getLast?_eq_none_iff] at hgl
      exact absurd hgl hwf.2.2.2.1
    | some c0 =>
      have hrl := @renderLine_getLast (segStr e.segIdx) e.speaker
        (qTimestamp e.start) e.text c0 hgl
      unfold renderEntry at hc
      rw [hrl] at hc
      obtain rfl : c0 = c := Option.some_injective _ hc
      exact hwf.2.2.2.2.2 _ hgl

theorem lineLocalTs_renderEntry {e : Entry} (hwf : EntryWF e) :
    lineLocalTs (renderEntry e) = some ⌊e.start⌋ := by
  have hstrip := stripWS_renderEntry hwf
  have hparse : parseLine (stripWS (renderEntry e))
      = some (segStr e.segIdx, e.speaker, qTimestamp e.start, e.text) := by
    rw [hstrip]
    exact parseLine_render ⟨(segStr_wf _).1, (segStr_wf _).2.1⟩ ⟨hwf.1, hwf.2.1⟩
      ⟨qTimestamp_ne_nil, fun hm => (mem_qTimestamp_charset hm).1 rfl⟩
      ⟨hwf.2.2.2.1, hwf.2.2.2.2.1⟩
  unfold lineLocalTs classifyLine
  rw [if_neg (by rw [hstrip]; exact renderEntry_ne_nil), hparse]
  have htp := tsParse_qTimestamp e.start
  simp only [htp]

/-- The audio-segments branch numbers its emitted entries densely from 0. -/
theorem groupedEntries_ids (segs : List AudioSegment) :
    (groupedEntries segs).map Entry.segIdx = List.range (groupedEntries segs).length := by
  unfold groupedEntries
  rw [groupedAux_ids]
  have hlen : (groupedAux 0 (pySorted (fun a b => decide (a.start_time < b.start_time)) segs)).length
      = (pySorted (fun a b => decide (a.start_time < b.start_time)) segs).length := by
    have h := congrArg List.length
      (groupedAux_ids 0 (pySorted (fun a b => decide (a.start_time < b.start_time)) segs))
    simpa using h
  rw [hlen, List.range_eq_range']

/-- The values of a well-formed speaker mapping are pairwise distinct. -/
theorem spkMapOK_pairwise {st : MState} (h : SpkMapOK st) :
    st.spkMap.Pairwise (fun p q => p.2 ≠ q.2) := by
  have hnd : (st.spkMap.map Prod.snd).Nodup := by
    rw [h]
    exact (List.nodup_range _).map (fun a b hab => spkStr_injective hab)
  exact (List.pairwise_map).1 hnd

/-- With an empty segment index no citation resolves, so the splicing loop
returns its accumulator unchanged. -/
theorem processRefs_empty_map (g : Str → Except Unit Str) :
    ∀ (refs : List SegRef) (acc : Str), (∀ r ∈ refs, r.segments ≠ []) →
      processRefs [] g acc refs = .ok acc := by
  intro refs
  induction refs with
  | nil => intro acc _; rfl
  | cons r rs ih =>
    intro acc h
    have hro : replaceOne [] g acc r = .ok acc := by
      rcases hseg : r.segments with _ | ⟨s0, rest⟩
      · exact absurd hseg (h r (List.mem_cons_self _ _))
      · simp only [replaceOne, hseg, lookupStrAssoc]
    rw [processRefs_cons, hro]
    exact ih acc (fun x hx => h x (List.mem_cons_of_mem _ hx))

/-! ### Concrete instances used by the claim theorems -/

/-- A diarization segment owning no pronunciation items (window `[0, 1)`). -/
def c1seg0 : DiarSegment := ⟨"spk_0".data, ((0 : Int) : ℚ), ((1 : Int) : ℚ), []⟩

/-- A diarization segment owning one pronunciation item (window `[1, 3)`). -/
def c1seg1 : DiarSegment := ⟨"spk_1".data, ((1 : Int) : ℚ), ((3 : Int) : ℚ), []⟩

/-- One pronunciation item at `t = 2`, inside `c1seg1` only. -/
def c1item : RawItem :=
  ⟨"pronunciation".data, ["hi".data], some 0, some ((2 : Int) : ℚ), some ((2 : Int) : ℚ)⟩

/-- A raw result in the token+diarization shape whose first diarization
segment attracts no items and is dropped. -/
def c1data : TranscriptData := ⟨some ⟨none, some ⟨[c1seg0, c1seg1]⟩, some [c1item]⟩⟩

/-- C1: for every canonical transcript of k emitted segments, the segment ids
are exactly seg_0 .. seg_{k-1}. AMENDED: that dense numbering holds on the
audio-segments branch, whose enumeration runs over exactly the emitted
entries; on the diarization branch the ids are strictly increasing (so never
duplicated), but they are the enumeration indices of the sorted input
segments, so dropping a segment with no attributed pronunciation items
leaves a gap instead of renumbering (see the counterexample). -/
theorem claimC1 (segs : List AudioSegment) (sl : SpeakerLabels) (its : List RawItem) :
    (groupedEntries segs).map Entry.segIdx = List.range (groupedEntries segs).length
      ∧ ((diarEntries sl its).map Entry.segIdx).Pairwise (· < ·) := by
  refine ⟨groupedEntries_ids segs, ?_⟩
  unfold diarEntries
  exact diarAux_ids_pairwise _ _ 0

/-- C1 counterexample: a diarization input whose first sorted segment owns no
pronunciation items emits a single entry carrying id `seg_1`, not the dense
`seg_0` the claim requires. -/
theorem claimC1_counterexample :
    (entriesOf c1data).length = 1
      ∧ (entriesOf c1data).map Entry.segIdx = [1]
      ∧ (entriesOf c1data).map Entry.segIdx ≠ List.range (entriesOf c1data).length := by
  refine ⟨by decide, by decide, by decide⟩

/-- Chunk A of the merge instance: two grouped segments at offsets `10` and
`20` seconds, declared chunk offset `0`. -/
def c2dataA : TranscriptData :=
  ⟨some ⟨some [⟨"spk_0".data, ((10 : Int) : ℚ), "alpha".data⟩,
               ⟨"spk_1".data, ((20 : Int) : ℚ), "beta".data⟩],
    some ⟨[]⟩, some []⟩⟩

/-- Chunk B of the merge instance: three grouped segments, declared chunk
offset `14400`, reusing the local labels `spk_0`/`spk_1` of chunk A. -/
def c2dataB : TranscriptData :=
  ⟨some ⟨some [⟨"spk_0".data, ((5 : Int) : ℚ), "c".data⟩,
               ⟨"spk_1".data, ((30 : Int) : ℚ), "d".data⟩,
               ⟨"spk_2".data, ((60 : Int) : ℚ), "e".data⟩],
    some ⟨[]⟩, some []⟩⟩

def c2chunkA : ChunkTranscript := ⟨0, 0, c2dataA⟩

def c2chunkB : ChunkTranscript := ⟨1, 14400, c2dataB⟩

/-- The merge state after processing chunk A alone. -/
def c2stA : MState :=
  ⟨[renderLine (segStr 0) (spkStr 0) (intTimestamp 10) "alpha".data,
    renderLine (segStr 1) (spkStr 1) (intTimestamp 20) "beta".data],
   2,
   [(chunkKey 0 "spk_0".data, spkStr 0), (chunkKey 0 "spk_1".data, spkStr 1)],
   2⟩

/-- The merge state after processing chunks A and B. -/
def c2stAB : MState :=
  ⟨[renderLine (segStr 0) (spkStr 0) (intTimestamp 10) "alpha".data,
    renderLine (segStr 1) (spkStr 1) (intTimestamp 20) "beta".data,
    renderLine (segStr 2) (spkStr 2) (intTimestamp 14405) "c".data,
    renderLine (segStr 3) (spkStr 3) (intTimestamp 14430) "d".data,
    renderLine (segStr 4) (spkStr 4) (intTimestamp 14460) "e".data],
   5,
   [(chunkKey 0 "spk_0".data, spkStr 0), (chunkKey 0 "spk_1".data, spkStr 1),
    (chunkKey 1 "spk_0".data, spkStr 2), (chunkKey 1 "spk_1".data, spkStr 3),
    (chunkKey 1 "spk_2".data, spkStr 4)],
   5⟩

/-- C2: on every successful merge each emitted segment's timestamp is its
chunk-local timestamp plus its chunk's declared offset (the merged timestamp
sequence is the chunk-order concatenation of the shifted local sequences);
the speaker mapping assigns the fresh labels `spk_0 .. spk_{n-1}` in order,
pairwise distinct across distinct keys; and keys of different chunks are
distinct even for equal local labels, so such pairs are never merged. -/
theorem claimC2 (chunks : List ChunkTranscript) (st' : MState)
    (h : mergeRun chunks = .ok st') :
    extractTsList st'.lines
        = (chunks.map (fun c => (localTsList c.data).map (· + c.chunk_start_time))).flatten
      ∧ st'.spkMap.map Prod.snd = (List.range st'.spkCtr).map spkStr
      ∧ st'.spkMap.Pairwise (fun p q => p.2 ≠ q.2)
      ∧ ∀ i j s, i ≠ j → chunkKey i s ≠ chunkKey j s := by
  refine ⟨mergeRun_ts h, mergeRun_spkMapOK h, spkMapOK_pairwise (mergeRun_spkMapOK h), ?_⟩
  intro i j s hij
  exact chunkKey_inj_chunk hij

/-- C2 witness: the concrete two-chunk merge of the claim — chunk A (offset
0, 2 segments) and chunk B (offset 14400, 3 segments) — succeeds with 5
segments, timestamps `[10, 20, 14405, 14430, 14460]` (B's local `5, 30, 60`
shifted by 14400), and 5 pairwise-distinct global speaker labels although
both chunks used the local labels `spk_0`/`spk_1`. -/
theorem claimC2_witness :
    mergeRun [c2chunkA, c2chunkB] = .ok c2stAB
      ∧ (extractTsList c2stAB.lines
          = ([c2chunkA, c2chunkB].map
              (fun c => (localTsList c.data).map (· + c.chunk_start_time))).flatten
        ∧ c2stAB.spkMap.map Prod.snd = (List.range c2stAB.spkCtr).map spkStr
        ∧ c2stAB.spkMap.Pairwise (fun p q => p.2 ≠ q.2)
        ∧ ∀ i j s, i ≠ j → chunkKey i s ≠ chunkKey j s)
      ∧ c2stAB.lines.length = 5
      ∧ extractTsList c2stAB.lines = [10, 20, 14405, 14430, 14460] := by
  have eA : convert_to_human_readable c2dataA
      = joinLines [renderLine (segStr 0) "spk_0".data (intTimestamp 10) "alpha".data,
                   renderLine (segStr 1) "spk_1".data (intTimestamp 20) "beta".data] := by
    rw [show convert_to_human_readable c2dataA
        = joinLines [renderLine (segStr 0) "spk_0".data (qTimestamp ((10 : Int) : ℚ)) "alpha".data,
                     renderLine (segStr 1) "spk_1".data (qTimestamp ((20 : Int) : ℚ)) "beta".data]
      from rfl, qTimestamp_intCast, qTimestamp_intCast]
  have eB : convert_to_human_readable c2dataB
      = joinLines [renderLine (segStr 0) "spk_0".data (intTimestamp 5) "c".data,
                   renderLine (segStr 1) "spk_1".data (intTimestamp 30) "d".data,
                   renderLine (segStr 2) "spk_2".data (intTimestamp 60) "e".data] := by
    rw [show convert_to_human_readable c2dataB
        = joinLines [renderLine (segStr 0) "spk_0".data (qTimestamp ((5 : Int) : ℚ)) "c".data,
                     renderLine (segStr 1) "spk_1".data (qTimestamp ((30 : Int) : ℚ)) "d".data,
                     renderLine (segStr 2) "spk_2".data (qTimestamp ((60 : Int) : ℚ)) "e".data]
      from rfl, qTimestamp_intCast, qTimestamp_intCast, qTimestamp_intCast]
  have hA : procChunk initMState c2chunkA = .ok c2stA := by
    show procLines 0 0 initMState (splitOnCh '\n' (convert_to_human_readable c2dataA))
      = .ok c2stA
    rw [eA]
    rfl
  have hB : procChunk c2stA c2chunkB = .ok c2stAB := by
    show procLines 1 14400 c2stA (splitOnCh '\n' (convert_to_human_readable c2dataB))
      = .ok c2stAB
    rw [eB]
    rfl
  have hrun : mergeRun [c2chunkA, c2chunkB] = .ok c2stAB := by
    show mergeChunks initMState [c2chunkA, c2chunkB] = .ok c2stAB
    simp only [mergeChunks, hA, hB]
  exact ⟨hrun, claimC2 _ _ hrun, by decide, by decide⟩

/-- Analysis text for the link-failure instance: two resolvable citations. -/
def c3text : Str := "see [seg_0] and [seg_1].".data

/-- Segment index mapping both `seg_0` and `seg_1` to timestamps. -/
def c3map : List (Str × Str) :=
  [("seg_0".data, "00:00:10".data), ("seg_1".data, "00:00:20".data)]

/-- A link builder that throws exactly on `seg_1`'s timestamp. -/
def c3gen : Str → Except Unit Str :=
  fun ts => if ts = "00:00:20".data then .error () else .ok "URL".data

/-- C3: citation resolution never raises, and a link-generation exception is
local to its citation. Formally: on any text whose accepted citations all
have nonempty segment sets, the rewrite equals the per-citation spec rewrite
(each remaining citation still processed and annotated); an exception inside
the link builder is caught at `generate_video_url_with_timestamp` and becomes
`none`; and a citation that resolves to `none` contributes an empty
annotation, its marker kept verbatim. (When a citation has an empty segment
set, the body's error is caught too and the text returned unchanged — that
catch-all path is claim C7's theorem.) -/
theorem claimC3 (text : Str) (m : List (Str × Str)) (g : Str → Except Unit Str)
    (hne : ∀ r ∈ parse_segment_references text, r.segments ≠ []) :
    replace_segment_citations_with_links text m g = specRewriteCitations text m g
      ∧ (∀ ts, g ts = .error () → generate_video_url_with_timestamp g ts = none)
      ∧ (∀ r, resolveRef m g r = none → annPiece m g r = []) := by
  refine ⟨replace_eq_spec hne, ?_, ?_⟩
  · intro ts hts
    unfold generate_video_url_with_timestamp
    rw [hts]
  · intro r hr
    unfold annPiece
    rw [hr]

/-- C3 witness: with a link builder that throws on `seg_1`'s timestamp only,
the concrete text keeps `[seg_1]` unresolved while `[seg_0]` is still
annotated, and the whole call returns normally. -/
theorem claimC3_witness :
    (∀ r ∈ parse_segment_references c3text, r.segments ≠ [])
      ∧ (replace_segment_citations_with_links c3text c3map c3gen
            = specRewriteCitations c3text c3map c3gen
        ∧ (∀ ts, c3gen ts = .error () →
            generate_video_url_with_timestamp c3gen ts = none)
        ∧ (∀ r, resolveRef c3map c3gen r = none → annPiece c3map c3gen r = []))
      ∧ replace_segment_citations_with_links c3text c3map c3gen
          = "see [seg_0]VIDEOLINK[URL#t=00:00:10]ENDLINK and [seg_1].".data := by
  refine ⟨by decide, claimC3 _ _ _ (by decide), by decide⟩

/-- C5: the citations kept by `parse_segment_references` are well-formed and
pairwise non-overlapping in source order — each span is nonempty, lies in the
text, its recorded marker is the text's slice, and each following span starts
at or after the previous span's end (the sort-then-greedy selection of the
code); and the text `[seg_1-2]` parses to exactly one range citation
`seg_1 .. seg_2` with no additional single-segment match. -/
theorem claimC5 (text : Str) :
    SpansOK text 0 (parse_segment_references text)
      ∧ parse_segment_references "[seg_1-2]".data
          = [⟨"[seg_1-2]".data, ["seg_1".data, "seg_2".data], 0, 9⟩] := by
  refine ⟨parse_spansOK text, by decide⟩

/-- Chunk C of the non-monotone merge: a single segment 18000 s in, declared
chunk offset `0`. -/
def c6dataA : TranscriptData :=
  ⟨some ⟨some [⟨"spk_0".data, ((18000 : Int) : ℚ), "a".data⟩], some ⟨[]⟩, some []⟩⟩

/-- Chunk D of the non-monotone merge: a single segment at its local start,
declared chunk offset `14400`. -/
def c6dataB : TranscriptData :=
  ⟨some ⟨some [⟨"spk_0".data, ((0 : Int) : ℚ), "b".data⟩], some ⟨[]⟩, some []⟩⟩

def c6chunkA : ChunkTranscript := ⟨0, 0, c6dataA⟩

def c6chunkB : ChunkTranscript := ⟨1, 14400, c6dataB⟩

/-- The merge state after the first non-monotone chunk. -/
def c6stA : MState :=
  ⟨[renderLine (segStr 0) (spkStr 0) (intTimestamp 18000) "a".data],
   1, [(chunkKey 0 "spk_0".data, spkStr 0)], 1⟩

/-- The merge state after both non-monotone chunks. -/
def c6stAB : MState :=
  ⟨[renderLine (segStr 0) (spkStr 0) (intTimestamp 18000) "a".data,
    renderLine (segStr 1) (spkStr 1) (intTimestamp 14400) "b".data],
   2, [(chunkKey 0 "spk_0".data, spkStr 0), (chunkKey 1 "spk_0".data, spkStr 1)], 2⟩

/-- C6: for every canonical transcript, adjacent start times are
non-decreasing. AMENDED: that holds for every single-result transcript — both
Normalizer branches sort by start time before emitting, and dropping entries
preserves sortedness — but not for merged transcripts: the merger
concatenates chunks in list order, so a chunk whose local timestamps exceed a
later chunk's declared offset plus its local timestamps produces a decreasing
adjacent pair (see the counterexample). -/
theorem claimC6 (d : TranscriptData) :
    ((entriesOf d).map Entry.start).Pairwise (· ≤ ·) :=
  entriesOf_starts_sorted d

/-- C6 counterexample: merging a chunk whose only segment is 18000 s in
(offset 0) with a chunk at offset 14400 yields the merged timestamp sequence
`[18000, 14400]`, which is not non-decreasing. -/
theorem claimC6_counterexample :
    (mergeRun [c6chunkA, c6chunkB]).map (fun st => extractTsList st.lines)
        = .ok [18000, 14400]
      ∧ ¬ (([18000, 14400] : List Int).Pairwise (· ≤ ·)) := by
  have eA : convert_to_human_readable c6dataA
      = joinLines [renderLine (segStr 0) "spk_0".data (intTimestamp 18000) "a".data] := by
    rw [show convert_to_human_readable c6dataA
        = joinLines [renderLine (segStr 0) "spk_0".data (qTimestamp ((18000 : Int) : ℚ)) "a".data]
      from rfl, qTimestamp_intCast]
  have eB : convert_to_human_readable c6dataB
      = joinLines [renderLine (segStr 0) "spk_0".data (intTimestamp 0) "b".data] := by
    rw [show convert_to_human_readable c6dataB
        = joinLines [renderLine (segStr 0) "spk_0".data (qTimestamp ((0 : Int) : ℚ)) "b".data]
      from rfl, qTimestamp_intCast]
  have hA : procChunk initMState c6chunkA = .ok c6stA := by
    show procLines 0 0 initMState (splitOnCh '\n' (convert_to_human_readable c6dataA))
      = .ok c6stA
    rw [eA]
    rfl
  have hB : procChunk c6stA c6chunkB = .ok c6stAB := by
    show procLines 1 14400 c6stA (splitOnCh '\n' (convert_to_human_readable c6dataB))
      = .ok c6stAB
    rw [eB]
    rfl
  have hrun : mergeRun [c6chunkA, c6chunkB] = .ok c6stAB := by
    show mergeChunks initMState [c6chunkA, c6chunkB] = .ok c6stAB
    simp only [mergeChunks, hA, hB]
  refine ⟨?_, by decide⟩
  rw [hrun]
  rfl

/-- The serialized textual wire form of a canonical segment list: one
`[seg_id][speaker][HH:MM:SS] text` line per segment, newline-joined (the
format `convert_to_human_readable` emits). -/
def serializeEntries (es : List Entry) : Str := joinLines (es.map renderEntry)

/-- Re-parsing of the wire form line by line with the line pattern, as the
Merger and the segment-index builder read it back. -/
def reparseLines (t : Str) : List (Option (Str × Str × Str × Str)) :=
  (splitOnCh '\n' t).map parseLine

/-- C4: serializing canonical segments and re-parsing each line reproduces
the same `(segment_id, speaker, timestamp, text)` tuples in order. AMENDED:
this round-trip needs the speaker (not only the text) to be nonempty in
addition to the claim's hypotheses — `[^\]]+` matches at least one character,
so a segment with an empty speaker label serializes to a line the pattern
rejects (see the counterexample). With nonempty, `]`-free, newline-free
speaker and text fields the round-trip is exact. -/
theorem claimC4 (es : List Entry) (hne : es ≠ [])
    (hwf : ∀ e ∈ es, e.speaker ≠ [] ∧ ']' ∉ e.speaker ∧ '\n' ∉ e.speaker
      ∧ e.text ≠ [] ∧ '\n' ∉ e.text) :
    reparseLines (serializeEntries es)
      = es.map (fun e => some (segStr e.segIdx, e.speaker, qTimestamp e.start, e.text)) := by
  unfold reparseLines serializeEntries
  have hmapne : es.map renderEntry ≠ [] := fun hmap => hne (by simpa using hmap)
  have hnl : ∀ l ∈ es.map renderEntry, '\n' ∉ l := by
    intro l hl
    rcases List.mem_map.1 hl with ⟨e, he, rfl⟩
    intro hmem
    obtain ⟨hs1, hs2, hs3, ht1, ht2⟩ := hwf e he
    unfold renderEntry at hmem
    rcases mem_renderLine hmem with h | h | h | h | h | h | h
    · exact absurd h (segStr_wf _).2.2
    · exact hs3 h
    · exact (mem_qTimestamp_charset h).2 rfl
    · exact ht2 h
    · exact absurd h (by decide)
    · exact absurd h (by decide)
    · exact absurd h (by decide)
  rw [splitOnCh_joinLines hmapne hnl, List.map_map]
  refine List.map_congr_left ?_
  intro e he
  obtain ⟨hs1, hs2, hs3, ht1, ht2⟩ := hwf e he
  show parseLine (renderEntry e) = _
  unfold renderEntry
  exact parseLine_render ⟨(segStr_wf _).1, (segStr_wf _).2.1⟩ ⟨hs1, hs2⟩
    ⟨qTimestamp_ne_nil, fun hm => (mem_qTimestamp_charset hm).1 rfl⟩ ⟨ht1, ht2⟩

/-- Two well-formed canonical segments for the round-trip instance. -/
def c4entries : List Entry :=
  [⟨0, "spk_0".data, ((0 : Int) : ℚ), "hello".data⟩,
   ⟨1, "spk_1".data, ((65 : Int) : ℚ), "there".data⟩]

/-- C4 witness: the two-segment instance satisfies the amended hypotheses and
round-trips to its own tuples. -/
theorem claimC4_witness :
    c4entries ≠ []
      ∧ (∀ e ∈ c4entries, e.speaker ≠ [] ∧ ']' ∉ e.speaker ∧ '\n' ∉ e.speaker
          ∧ e.text ≠ [] ∧ '\n' ∉ e.text)
      ∧ reparseLines (serializeEntries c4entries)
          = c4entries.map
              (fun e => some (segStr e.segIdx, e.speaker, qTimestamp e.start, e.text)) := by
  refine ⟨by decide, by decide, claimC4 c4entries (by decide) (by decide)⟩

/-- A canonical segment with an empty speaker label (and otherwise
claim-conforming fields: no `]`, no newline, nonempty text). -/
def c4badEntry : Entry := ⟨0, [], ((0 : Int) : ℚ), "hi".data⟩

/-- C4 counterexample: the empty-speaker segment satisfies every hypothesis
the claim states, yet its serialized line re-parses to `none` — the tuple
list is not reproduced, the segment is lost. -/
theorem claimC4_counterexample :
    (']' ∉ c4badEntry.speaker ∧ '\n' ∉ c4badEntry.speaker
      ∧ c4badEntry.text ≠ [] ∧ '\n' ∉ c4badEntry.text)
      ∧ reparseLines (serializeEntries [c4badEntry]) = [none] := by
  have h : renderEntry c4badEntry = renderLine (segStr 0) [] (intTimestamp 0) "hi".data := by
    show renderLine (segStr 0) [] (qTimestamp ((0 : Int) : ℚ)) "hi".data = _
    rw [qTimestamp_intCast]
  refine ⟨by decide, ?_⟩
  unfold reparseLines serializeEntries
  simp only [List.map_cons, List.map_nil, h]
  decide

/-- C7: a numeric-range citation `[seg_N-M]` with `M < N` denotes the empty
segment set (`range(N, M+1)` is empty), `segments[0]` then raises
`IndexError`, and the function's catch-all returns the original analysis
text character for character — every marker left unresolved and unchanged. -/
theorem claimC7 (text : Str) (m : List (Str × Str)) (g : Str → Except Unit Str)
    (hex : ∃ r ∈ parse_segment_references text, r.segments = []) :
    replace_segment_citations_with_links text m g = text :=
  replace_empty_range_eq_text hex

/-- Text carrying an inverted numeric range citation. -/
def c7text : Str := "cite [seg_5-3] here.".data

/-- A segment index and link builder that would resolve `seg_3`. -/
def c7map : List (Str × Str) := [("seg_3".data, "00:00:01".data)]

def c7gen : Str → Except Unit Str := fun _ => .ok "u".data

/-- C7 witness: `[seg_5-3]` parses to a citation with an empty segment set,
and resolution returns the text unchanged. -/
theorem claimC7_witness :
    (∃ r ∈ parse_segment_references c7text, r.segments = [])
      ∧ replace_segment_citations_with_links c7text c7map c7gen = c7text := by
  refine ⟨by decide, claimC7 _ _ _ (by decide)⟩

/-- Text with one unresolvable and one resolvable citation. -/
def c8text : Str := "see [seg_99] and [seg_0].".data

/-- A segment index that knows `seg_0` but not `seg_99`. -/
def c8map : List (Str × Str) := [("seg_0".data, "00:00:07".data)]

def c8gen : Str → Except Unit Str := fun _ => .ok "URL".data

/-- C8: the rewrite equals the per-citation spec rewrite, in which a citation
whose first segment id is absent from the index contributes its marker with
an empty annotation (left intact, processing continues), and a citation
whose first segment id resolves contributes its marker immediately followed
by the delimiter-wrapped URL built from that first id's timestamp — a range
is anchored to its start, the head of its segment list. -/
theorem claimC8 (text : Str) (m : List (Str × Str)) (g : Str → Except Unit Str)
    (hne : ∀ r ∈ parse_segment_references text, r.segments ≠ []) :
    replace_segment_citations_with_links text m g = specRewriteCitations text m g
      ∧ (∀ r s0 rest, r.segments = s0 :: rest → lookupStrAssoc s0 m = none →
          annPiece m g r = [])
      ∧ (∀ r s0 rest ts u, r.segments = s0 :: rest → lookupStrAssoc s0 m = some ts →
          g ts = .ok u →
          annPiece m g r = videoLinkWrap (u ++ '#' :: 't' :: '=' :: ts)) := by
  refine ⟨replace_eq_spec hne, ?_, ?_⟩
  · intro r s0 rest hseg hlk
    simp only [annPiece, resolveRef, hseg, hlk]
    rfl
  · intro r s0 rest ts u hseg hlk hg
    simp only [annPiece, resolveRef, hseg, hlk, Option.some_bind,
      generate_video_url_with_timestamp, hg]

/-- C8 witness: in the concrete text, `[seg_99]` (absent from the index)
comes back intact with no annotation, while `[seg_0]` is replaced by the
marker immediately followed by the wrapped URL for its timestamp. -/
theorem claimC8_witness :
    (∀ r ∈ parse_segment_references c8text, r.segments ≠ [])
      ∧ (replace_segment_citations_with_links c8text c8map c8gen
            = specRewriteCitations c8text c8map c8gen
        ∧ (∀ r s0 rest, r.segments = s0 :: rest → lookupStrAssoc s0 c8map = none →
            annPiece c8map c8gen r = [])
        ∧ (∀ r s0 rest ts u, r.segments = s0 :: rest →
            lookupStrAssoc s0 c8map = some ts → c8gen ts = .ok u →
            annPiece c8map c8gen r = videoLinkWrap (u ++ '#' :: 't' :: '=' :: ts)))
      ∧ replace_segment_citations_with_links c8text c8map c8gen
          = "see [seg_99] and [seg_0]VIDEOLINK[URL#t=00:00:07]ENDLINK.".data := by
  refine ⟨by decide, claimC8 _ _ _ (by decide), by decide⟩

/-- C9: a raw result lacking the expected top-level structure — no `results`,
no `speaker_labels` or no `items` key — makes the Normalizer return the
explicit error-marker transcript instead of raising; in this total embedding
the catch-all `except` branch of the code is unreachable, so every malformed
shape takes the guarded error return. -/
theorem claimC9 (d : TranscriptData)
    (h : d.results = none
      ∨ ∃ r, d.results = some r ∧ (r.speaker_labels = none ∨ r.items = none)) :
    convert_to_human_readable d = errUnexpectedFormat := by
  unfold convert_to_human_readable
  rcases h with h | ⟨r, hr, h2 | h2⟩
  · simp only [h]
  · simp only [hr, h2]
  · cases hsl : r.speaker_labels with
    | none => simp only [hr, hsl]
    | some sl => simp only [hr, hsl, h2]

/-- A raw result with no `results` key at all. -/
def c9data : TranscriptData := ⟨none⟩

/-- C9 witness: the keyless raw result converts to the error marker. -/
theorem claimC9_witness :
    (c9data.results = none
      ∨ ∃ r, c9data.results = some r ∧ (r.speaker_labels = none ∨ r.items = none))
      ∧ convert_to_human_readable c9data = errUnexpectedFormat :=
  ⟨Or.inl rfl, claimC9 c9data (Or.inl rfl)⟩

/-- C10: resolving twice never double-annotates. AMENDED: re-running the
resolution pass does double-annotate — the annotation is appended after the
marker, the marker itself stays in the output, and the second pass matches
it again (see the counterexample). What holds is the unresolvable case: when
no citation resolves, e.g. under an empty segment index, resolution returns
the text unchanged, and is therefore idempotent there. -/
theorem claimC10 (t : Str) (g : Str → Except Unit Str) :
    replace_segment_citations_with_links t [] g = t := by
  by_cases hex : ∃ r ∈ parse_segment_references t, r.segments = []
  · exact replace_empty_range_eq_text hex
  · push_neg at hex
    have hbody : replaceBody t [] g = .ok t := by
      unfold replaceBody
      exact processRefs_empty_map g _ t (fun r hr => hex r (List.mem_reverse.1 hr))
    unfold replace_segment_citations_with_links
    rw [hbody]

/-- The already-annotated instance: one marker, an index resolving it. -/
def c10text : Str := "[seg_0]".data

def c10map : List (Str × Str) := [("seg_0".data, "00:00:00".data)]

def c10gen : Str → Except Unit Str := fun _ => .ok "u".data

/-- C10 counterexample: running resolution on its own output annotates the
already-annotated `[seg_0]` a second time, so the second pass differs from
the first — resolution is not idempotent. -/
theorem claimC10_counterexample :
    replace_segment_citations_with_links c10text c10map c10gen
        = "[seg_0]VIDEOLINK[u#t=00:00:00]ENDLINK".data
      ∧ replace_segment_citations_with_links
          (replace_segment_citations_with_links c10text c10map c10gen) c10map c10gen
        = "[seg_0]VIDEOLINK[u#t=00:00:00]ENDLINKVIDEOLINK[u#t=00:00:00]ENDLINK".data
      ∧ replace_segment_citations_with_links
            (replace_segment_citations_with_links c10text c10map c10gen) c10map c10gen
          ≠ replace_segment_citations_with_links c10text c10map c10gen := by
  refine ⟨by decide, by decide, by decide⟩

end SemanticLighthouse
